import Mathlib

/-!
Verification of the Shopify store crawler (`backend/crawler/main.py`).

The Python source is shallowly embedded below.  External collaborators
(the HTTP layer `httpx`, the YAKE keyword extractor, the trafilatura
prose extractor and the sentence-transformers embedding model) are
modelled as explicit function/fixture parameters: the crawler only
observes their outputs, and every claim quantifies over those outputs.
Python floats are modelled as exact rationals; `round` is modelled as
round-half-to-even on rationals.  Python dicts keyed by strings are
modelled as association lists in first-insertion order.
-/

namespace Crawler

/-! ### Generic string helpers (Python semantics) -/

/-- Does `hay` start with `needle`? (char-list level). -/
def startsSeq : List Char → List Char → Bool
  | [], _ => true
  | _ :: _, [] => false
  | a :: as, b :: bs => a = b && startsSeq as bs

/-- Python's substring test `needle in hay`, on char lists. -/
def hasSeq (needle : List Char) : List Char → Bool
  | [] => startsSeq needle []
  | c :: rest => startsSeq needle (c :: rest) || hasSeq needle rest

/-- Python's `needle in hay` on strings. -/
def pyIn (needle hay : String) : Bool := hasSeq needle.data hay.data

/-- Python's `str.lower()` (ASCII case folding, as in `Char.toLower`). -/
def pyLower (s : String) : String := String.mk (s.data.map Char.toLower)

/-- Strip chars satisfying `p` from the end of a char list. -/
def stripEndBy (p : Char → Bool) (l : List Char) : List Char :=
  (l.reverse.dropWhile p).reverse

/-- Python's `str.strip(chars)`: remove chars satisfying `p` from both ends
(stripping the two ends is order-independent; we strip the end first). -/
def stripBy (p : Char → Bool) (s : String) : String :=
  String.mk ((stripEndBy p s.data).dropWhile p)

/-- The char set of `.strip(" .,:;|/\\-")` in `extract_keywords`. -/
def STRIP_CHARS : List Char := [' ', '.', ',', ':', ';', '|', '/', '\\', '-']

def inStripSet (c : Char) : Bool := decide (c ∈ STRIP_CHARS)

/-- The strip used on keyword terms. -/
def pyStrip (s : String) : String := stripBy inStripSet s

/-- Python's `str.strip()` (whitespace), used on product types/vendors. -/
def stripWS (s : String) : String := stripBy Char.isWhitespace s

/-- Python's `str.title()` restricted to ASCII letters. -/
def pyTitleGo : Bool → List Char → List Char
  | _, [] => []
  | prev, c :: cs =>
    (if c.isAlpha then (if prev then c.toLower else c.toUpper) else c) ::
      pyTitleGo c.isAlpha cs

def pyTitle (s : String) : String := String.mk (pyTitleGo false s.data)

/-- Python's `str.isdigit()` (ASCII digits). -/
def pyIsDigit (w : String) : Bool := !w.data.isEmpty && w.data.all Char.isDigit

/-- Lexicographic strict order on char lists: Python's `<` on strings. -/
def lexLtB : List Char → List Char → Bool
  | [], [] => false
  | [], _ :: _ => true
  | _ :: _, [] => false
  | a :: as, b :: bs => if a = b then lexLtB as bs else decide (a < b)

/-- Python's `<` on strings. -/
def strLt (a b : String) : Bool := lexLtB a.data b.data

/-! ### Sorting key of the frequency tables

Python sorts `freq.items()` with key `(-count, key)`, i.e. ascending in
that tuple order: descending count, ties by ascending string. -/

def pairLeB (a b : String × Nat) : Bool :=
  decide (b.2 < a.2) || (decide (a.2 = b.2) && (strLt a.1 b.1 || decide (a.1 = b.1)))

def pairLe (a b : String × Nat) : Prop := pairLeB a b = true

instance : DecidableRel pairLe := fun a b => instDecidableEqBool (pairLeB a b) true

/-- Python dict building: count occurrences, keys in first-insertion order. -/
def bump : List (String × Nat) → String → List (String × Nat)
  | [], x => [(x, 1)]
  | (k, c) :: rest, x =>
    if k = x then (k, c + 1) :: rest else (k, c) :: bump rest x

def countOccs (items : List String) : List (String × Nat) :=
  items.foldl bump []

/-- `sorted(freq.items(), key=lambda kv: (-kv[1], kv[0]))`. -/
def sortPairs (l : List (String × Nat)) : List (String × Nat) :=
  List.insertionSort pairLe l

/-! ### Numeric helpers -/

/-- Python's `max` on a nonempty list (first maximal value; 0 on `[]`,
which the source never hits). -/
def maxQ : List ℚ → ℚ
  | [] => 0
  | x :: xs => xs.foldl max x

def minQ : List ℚ → ℚ
  | [] => 0
  | x :: xs => xs.foldl min x

/-- Python's `list.index` for a present element (length if absent,
which the source never hits). -/
def firstIdxOf (x : ℚ) : List ℚ → Nat
  | [] => 0
  | y :: ys => if y = x then 0 else firstIdxOf x ys + 1

/-- Round-half-to-even to an integer (Python's `round`, with floats read
as exact rationals). -/
def roundHalfEven (x : ℚ) : ℤ :=
  if x - (⌊x⌋ : ℚ) < 1 / 2 then ⌊x⌋
  else if 1 / 2 < x - (⌊x⌋ : ℚ) then ⌊x⌋ + 1
  else if ⌊x⌋ % 2 = 0 then ⌊x⌋ else ⌊x⌋ + 1

/-- Python's `round(q, 2)`. -/
def pyRound2 (q : ℚ) : ℚ := (roundHalfEven (q * 100) : ℚ) / 100

/-! ### The social-link regular expressions

`extract_social_links` builds, per platform name `pl`, the pattern
"https?://(?:www\.)?" + pl + "\.com/" + one-or-more URL-safe chars
(letters, digits, underscore, dot, dash, slash, percent), and runs
`re.findall(..., re.IGNORECASE)`.  The platform name is spliced in raw,
so a `.` inside it (as in `"x.com"`) is a regex wildcard.  We model
exactly the atoms this fixed pattern family uses. -/

inductive Atom where
  | lit (c : Char)
  | wild
  | optLits (g : List Char)
  | plus (p : Char → Bool)

/-- Case-insensitive literal char match (`re.IGNORECASE`). -/
def litMatches (c d : Char) : Bool := d.toLower = c.toLower

/-- Match a literal char sequence case-insensitively at the start of
`cs`; returns the consumed chars and the rest. -/
def matchLits : List Char → List Char → Option (List Char × List Char)
  | [], cs => some ([], cs)
  | _ :: _, [] => none
  | c :: gs, d :: cs =>
    if litMatches c d then
      (matchLits gs cs).map (fun mr => (d :: mr.1, mr.2))
    else none

/-- Greedy backtracking matcher for a pattern anchored at the start of
`cs`; returns the consumed chars and the rest.  The optional groups in
our patterns are literal sequences (matching in at most one way), and a
`plus` only occurs as the last atom, so this agrees with the regex
backtracking semantics. -/
def matchAtoms : List Atom → List Char → Option (List Char × List Char)
  | [], cs => some ([], cs)
  | .lit _ :: _, [] => none
  | .lit c :: rest, d :: cs =>
    if litMatches c d then
      (matchAtoms rest cs).map (fun mr => (d :: mr.1, mr.2))
    else none
  | .wild :: _, [] => none
  | .wild :: rest, d :: cs =>
    if d = '\n' then none
    else (matchAtoms rest cs).map (fun mr => (d :: mr.1, mr.2))
  | .optLits g :: rest, cs =>
    match matchLits g cs with
    | some (m1, cs1) =>
      match matchAtoms rest cs1 with
      | some (m2, r) => some (m1 ++ m2, r)
      | none => matchAtoms rest cs
    | none => matchAtoms rest cs
  | .plus p :: rest, cs =>
    let t := cs.takeWhile p
    if t.isEmpty then none
    else (matchAtoms rest (cs.drop t.length)).map (fun mr => (t ++ mr.1, mr.2))

/-- `re.findall` scan: try to match at each position, restart after each
match (matches of our patterns are never empty).  Fuel is the input
length, enough since every step consumes at least one char. -/
def scanAll (pat : List Atom) : Nat → List Char → List String
  | 0, _ => []
  | _ + 1, [] => []
  | fuel + 1, c :: cs =>
    match matchAtoms pat (c :: cs) with
    | some (m, rest) =>
      if m.isEmpty then scanAll pat fuel cs
      else String.mk m :: scanAll pat fuel rest
    | none => scanAll pat fuel cs

def findall (pat : List Atom) (s : String) : List String :=
  scanAll pat s.data.length s.data

/-- The URL-path char class: letters, digits, underscore, dot, dash,
slash, percent. -/
def isUrlChar (c : Char) : Bool :=
  c.isAlphanum || c = '_' || c = '.' || c = '-' || c = '/' || c = '%'

/-- `https?://(?:www\.)?` -/
def schemeAtoms : List Atom :=
  [.lit 'h', .lit 't', .lit 't', .lit 'p', .optLits ['s'], .lit ':', .lit '/', .lit '/',
   .optLits ['w', 'w', 'w', '.']]

/-- The platform name spliced raw into the pattern: letters are literals,
a dot is the regex wildcard. -/
def platChars (pl : String) : List Atom :=
  pl.data.map (fun c => if c = '.' then Atom.wild else Atom.lit c)

/-- Full pattern for one platform. -/
def platformAtoms (pl : String) : List Atom :=
  schemeAtoms ++ platChars pl ++
    [.lit '.', .lit 'c', .lit 'o', .lit 'm', .lit '/', .plus isUrlChar]

/-- `list(set(matches))`: deduplicate (first-occurrence order stands in
for CPython's unspecified set iteration order). -/
def dedupeGo : List String → List String → List String
  | [], _ => []
  | x :: xs, seen =>
    if seen.contains x then dedupeGo xs seen else x :: dedupeGo xs (x :: seen)

def dedupe (l : List String) : List String := dedupeGo l []

/-! ### Data model of the fetched payloads

Fixture structures describe what the HTTP layer hands the crawler.  An
outer `Option`/`Except` models `fetch` raising; `Option` on a parsed
body models `r.json()` raising. -/

inductive PriceVal where
  | num (q : ℚ)
  | invalid
  deriving DecidableEq

structure Variant where
  price : Option PriceVal
  deriving DecidableEq

structure Product where
  title : String
  product_type : String
  vendor : String
  tags : List String
  variants : List Variant
  deriving DecidableEq

structure MetaJson where
  shopName : Option String
  deriving DecidableEq

/-- The dict returned by `summarize_products`. -/
structure CatalogSummary where
  product_types_top : List (String × Nat)
  vendors_top : List (String × Nat)
  tags_top : List (String × Nat)
  title_terms_top : List String
  total_products_sampled : Nat
  example_titles : List String
  deriving DecidableEq

/-- The dict returned by `summarize_prices` when prices exist. -/
structure PriceSummary where
  min_price : ℚ
  max_price : ℚ
  avg_price : ℚ
  num_prices : Nat
  deriving DecidableEq

structure CollectionItem where
  title : Option String
  handle : Option String
  deriving DecidableEq

structure HomeResp where
  headers : List (String × String)
  body : String
  deriving DecidableEq

structure PageResp where
  status : Nat
  contentType : String
  /-- `none`: `r.json()` raises; `some v`: `v` is `.get("products")`,
  where `none` models an absent/null key (the code's `or []`). -/
  json : Option (Option (List Product))
  deriving DecidableEq

structure MetaResp where
  status : Nat
  contentType : String
  /-- `none`: `r.json()` raises (caught, yielding `None`). -/
  json : Option MetaJson
  deriving DecidableEq

structure CollResp where
  status : Nat
  contentType : String
  /-- `none`: `r.json()` raises or the key is null (both end as `[]`). -/
  json : Option (List CollectionItem)
  deriving DecidableEq

/-- All responses one domain's analysis can observe. -/
structure FetchWorld where
  homepage : Except String HomeResp
  metaPage : Option MetaResp
  productPage : Nat → Option PageResp
  collectionsPage : Option CollResp

/-- The deterministic external models: sentence-transformer similarities,
YAKE raw keyword output, trafilatura prose extraction. -/
structure EnvModel where
  simsOf : String → List ℚ
  yakeKw : String → Nat → List (String × ℚ)
  prose : String → Option String

/-! ### Embedded source functions -/

/-- `CATEGORIES` of `main.py`. -/
def CATEGORIES : List String :=
  ["clothing", "footwear", "jewelry", "watches", "home decor",
   "furniture", "beauty products", "sports gear", "electronics",
   "food and beverages", "pet supplies", "toys and games",
   "art and prints", "outdoor equipment", "stationery"]

/-- `domain.split(".")[0]`. -/
def firstLabel (domain : String) : String :=
  String.mk (domain.data.takeWhile (fun c => !(c = '.')))

/-- The display name: `(meta or ...).get("shop", ...).get("name") or
domain.split(".")[0].title()` (an absent or empty declared name falls
back to the title-cased leading domain label). -/
def displayName (domain : String) (meta : Option MetaJson) : String :=
  match meta with
  | some m =>
    match m.shopName with
    | some n => if n = "" then pyTitle (firstLabel domain) else n
    | none => pyTitle (firstLabel domain)
  | none => pyTitle (firstLabel domain)

/-- The composite text signal joined in `describe_store_semantic`. -/
def compositeText (offerings : CatalogSummary) (keywords : List String) : String :=
  String.intercalate " "
    (keywords ++ offerings.product_types_top.map Prod.fst ++
      offerings.title_terms_top ++ offerings.tags_top.map Prod.fst)

/-- `describe_store_semantic`: embed the composite signal, take the
category of the first maximal cosine similarity.  `simsOf` stands for
the similarity row `util.cos_sim(emb, CAT_EMB)[0].tolist()`. -/
def describe_store_semantic (simsOf : String → List ℚ) (domain : String)
    (meta : Option MetaJson) (offerings : CatalogSummary)
    (keywords : List String) : String :=
  let text0 := compositeText offerings keywords
  let text := if text0 = "" then "products" else text0
  let sims := simsOf text
  let best_cat := CATEGORIES.getD (firstIdxOf (maxQ sims) sims) ""
  displayName domain meta ++ " sells " ++ best_cat ++ " and related products."

/-- `is_shopify_store`. -/
def is_shopify_store (html_str : String) (headers : List (String × String)) : Bool :=
  let low := pyLower html_str
  if pyIn "cdn.shopify.com" low then true
  else if pyIn "shopify-features" low then true
  else if pyIn "shopify" low && pyIn "script" low then true
  else if headers.any (fun kv => pyIn "shopify" (pyLower kv.1)) then true
  else if pyIn "/cart" low && pyIn "/products/" low then true
  else false

/-- The fixed denylist of `extract_keywords`. -/
def DENYLIST : List String := ["cookie", "privacy", "policy", "login"]

/-- `term.strip(" .,:;|/\\-").lower()`. -/
def cleanTerm (t : String) : String := pyLower (pyStrip t)

/-- The keep condition of `extract_keywords`. -/
def keepTerm (t : String) : Bool :=
  decide (3 ≤ t.length) && DENYLIST.all (fun bad => !(pyIn bad t))

/-- `sorted(keywords, key=lambda x: x[1])` (stable, ascending score). -/
def sortByScore (l : List (String × ℚ)) : List (String × ℚ)  :=
  List.insertionSort (fun a b => a.2 ≤ b.2) l

/-- `extract_keywords`; `yakeKw` stands for the raw YAKE extractor
output on the given text and top bound. -/
def extract_keywords (yakeKw : String → Nat → List (String × ℚ))
    (text : String) (topk : Nat) : List String :=
  if text = "" then []
  else
    ((sortByScore (yakeKw text topk)).filterMap (fun ts =>
      if keepTerm (cleanTerm ts.1) then some (cleanTerm ts.1) else none)).take topk

/-- `fetch_shopify_meta`. -/
def fetch_shopify_meta (w : FetchWorld) : Option MetaJson :=
  match w.metaPage with
  | none => none
  | some r =>
    if r.status = 200 ∧ pyIn "json" r.contentType then r.json else none

/-- One page of the `fetch_shopify_products` loop; also records which
pages were requested.  Every loop entry issues the page request first,
so the page is recorded in every branch. -/
def fetchPagesGo (pages : Nat → Option PageResp) (limit : Nat) :
    List Nat → List Product → List Product × List Nat
  | [], acc => (acc, [])
  | p :: ps, acc =>
    match pages p with
    | none => (acc, [p])
    | some r =>
      if r.status = 200 ∧ pyIn "json" r.contentType then
        match r.json with
        | none => (acc, [p])
        | some jv =>
          if jv.getD [] = [] then (acc, [p])
          else if (jv.getD []).length < limit then (acc ++ jv.getD [], [p])
          else
            match fetchPagesGo pages limit ps (acc ++ jv.getD []) with
            | (res, reqs) => (res, p :: reqs)
      else (acc, [p])

/-- `fetch_shopify_products` together with the requested page numbers. -/
def fetch_shopify_productsT (pages : Nat → Option PageResp)
    (limit page_limit : Nat) : List Product × List Nat :=
  fetchPagesGo pages limit (List.range' 1 page_limit) []

/-- `fetch_shopify_products(base, limit=250, page_limit=2)`. -/
def fetch_shopify_products (pages : Nat → Option PageResp)
    (limit page_limit : Nat) : List Product :=
  (fetch_shopify_productsT pages limit page_limit).1

/-- `fetch_shopify_collections`. -/
def fetch_shopify_collections (w : FetchWorld) : List CollectionItem :=
  match w.collectionsPage with
  | none => []
  | some r =>
    if r.status = 200 ∧ pyIn "json" r.contentType then r.json.getD [] else []

/-- Chars kept by the title tokenizer `re.split` class: letters, digits,
plus, ampersand, apostrophe, dash. -/
def isTitleWordChar (c : Char) : Bool :=
  c.isAlphanum || c = '+' || c = '&' || c = '\'' || c = '-'

/-- Maximal runs of chars satisfying `p` (the nonempty pieces of
Python's `re.split` on the complement class; empty pieces are dropped,
matching the later length filter).  `cur` is the current run reversed. -/
def splitRunsGo (p : Char → Bool) : List Char → List Char → List (List Char)
  | [], cur => if cur.isEmpty then [] else [cur.reverse]
  | c :: cs, cur =>
    if p c then splitRunsGo p cs (c :: cur)
    else if cur.isEmpty then splitRunsGo p cs [] else cur.reverse :: splitRunsGo p cs []

def splitRuns (p : Char → Bool) (l : List Char) : List (List Char) :=
  splitRunsGo p l []

/-- Title words: tokenize each lower-cased title, keep tokens of length
3..20 that are not all digits. -/
def titleWords (titles : List String) : List String :=
  titles.flatMap (fun t =>
    ((splitRuns isTitleWordChar (pyLower t).data).map String.mk).filter
      (fun w => decide (3 ≤ w.length) && decide (w.length ≤ 20) && !(pyIsDigit w)))

/-- The inner `top(items, k)` utility of `summarize_products`: count
nonempty items, sort by descending count then ascending key, take `k`. -/
def topFreq (items : List String) (k : Nat) : List (String × Nat) :=
  (sortPairs (countOccs (items.filter (fun i => !(i = ""))))).take k

/-- The sorted title-word frequency pairs (top 20). -/
def titleTermPairs (titles : List String) : List (String × Nat) :=
  (sortPairs (countOccs (titleWords titles))).take 20

/-- `summarize_products`. -/
def summarize_products (products : List Product) : CatalogSummary :=
  let types := products.map (fun p => stripWS p.product_type)
  let vendors := products.map (fun p => stripWS p.vendor)
  let tags := products.flatMap Product.tags
  let titles := products.map Product.title
  { product_types_top := topFreq types 8
    vendors_top := topFreq vendors 5
    tags_top := topFreq tags 10
    title_terms_top := (titleTermPairs titles).map Prod.fst
    total_products_sampled := products.length
    example_titles := titles.take 8 }

/-- `float(v.get("price", 0))` kept when strictly positive; an absent
price defaults to 0 and a non-numeric price raises — both are skipped. -/
def variantPrice (v : Variant) : Option ℚ :=
  match v.price with
  | some (.num q) => if 0 < q then some q else none
  | _ => none

/-- The flattened list of valid variant prices, in source order. -/
def collectPrices (products : List Product) : List ℚ :=
  products.flatMap (fun p => p.variants.filterMap variantPrice)

/-- `summarize_prices`. -/
def summarize_prices (products : List Product) : Option PriceSummary :=
  let prices := collectPrices products
  if prices = [] then none
  else some
    { min_price := minQ prices
      max_price := maxQ prices
      avg_price := pyRound2 (prices.sum / (prices.length : ℚ))
      num_prices := prices.length }

/-- The fixed platform list of `extract_social_links`. -/
def SOCIAL_PLATFORMS : List String :=
  ["instagram", "facebook", "tiktok", "youtube", "twitter", "x.com"]

/-- `extract_social_links`: per platform, findall then dedupe; platforms
with no match are omitted. -/
def extract_social_links (html : String) : List (String × List String) :=
  SOCIAL_PLATFORMS.filterMap (fun pl =>
    if findall (platformAtoms pl) html = [] then none
    else some (pl, dedupe (findall (platformAtoms pl) html)))

/-- The indicator tokens of `detect_buy_with_prime`. -/
def BWP_TOKENS : List String :=
  ["buywithprime.amazon", "buy-with-prime", "bwp.js", "bwp-client",
   "data-bwp", "amazonpay"]

/-- `detect_buy_with_prime`. -/
def detect_buy_with_prime (html : String) : Bool :=
  BWP_TOKENS.any (fun tok => pyIn tok (pyLower html))

/-- The per-domain result dicts: an error record (no "platform" key), a
"Not Shopify" record, or a full "Shopify" record. -/
inductive StoreRecord where
  | fetchError (domain : String) (error : String)
  | notShopify (domain : String)
  | shopify (domain : String) (meta : Option MetaJson) (description : String)
      (collections : List (Option String × Option String))
      (offerings : CatalogSummary) (price_summary : Option PriceSummary)
      (social_links : List (String × List String)) (buy_with_prime : Bool)
      (landing_keywords : List String) (timestamp : Nat)
  deriving DecidableEq

/-- `store.get("platform") == "Shopify"`: true only for full records
(the error record has no platform key, the skip record has
"Not Shopify"). -/
def isQualifying : StoreRecord → Bool
  | .shopify .. => true
  | _ => false

/-- `analyze_shopify_store`, over a fixture world and the deterministic
external models; `now` is the wall-clock second `int(time.time())`
observed at record assembly. -/
def analyze_shopify_store (env : EnvModel) (w : FetchWorld) (now : Nat)
    (domain : String) : StoreRecord :=
  match w.homepage with
  | .error e => .fetchError domain ("fetch_home_failed: " ++ e)
  | .ok resp =>
    let html := resp.body
    if !is_shopify_store html resp.headers then .notShopify domain
    else
      let meta := fetch_shopify_meta w
      let products := fetch_shopify_products w.productPage 250 2
      let collections := fetch_shopify_collections w
      if products = [] then .notShopify domain
      else
        let offerings := summarize_products products
        let text := (env.prose html).getD ""
        let keywords := extract_keywords env.yakeKw text 15
        let description := describe_store_semantic env.simsOf domain meta offerings keywords
        .shopify domain meta description
          (collections.map (fun c => (c.title, c.handle)))
          offerings (summarize_prices products) (extract_social_links html)
          (detect_buy_with_prime html) keywords now

/-- The `__main__` loop: analyze every domain, but append only records
whose platform is "Shopify".  (In the model `analyze_shopify_store` is
total, so the `except` branch that would append an inline error record
is unreachable.) -/
def runMain (env : EnvModel) (worlds : String → FetchWorld) (now : Nat)
    (domains : List String) : List StoreRecord :=
  domains.foldl (fun acc d =>
    let store := analyze_shopify_store env (worlds d) now d
    if isQualifying store then acc ++ [store] else acc) []

/-! ### Predicates used by the claim statements -/

/-- The strict top-K ordering of the spec: strictly greater count, or
equal count and strictly smaller (lexicographically earlier) key. -/
def strictFreqOrd (a b : String × Nat) : Prop :=
  b.2 < a.2 ∨ (a.2 = b.2 ∧ strLt a.1 b.1 = true)

/-- A products page that lets the pagination loop continue: request
succeeded, status-200 JSON, parsed, nonempty batch of at least `limit`
products. -/
def pageGood (pages : Nat → Option PageResp) (limit p : Nat) : Prop :=
  ∃ r jv, pages p = some r ∧ r.status = 200 ∧ pyIn "json" r.contentType = true ∧
    r.json = some jv ∧ jv.getD [] ≠ [] ∧ ¬((jv.getD []).length < limit)

/-- Two records that agree on every field except (for full records) the
capture timestamp. -/
def eqExceptTimestamp : StoreRecord → StoreRecord → Prop
  | .fetchError d e, .fetchError d2 e2 => d = d2 ∧ e = e2
  | .notShopify d, .notShopify d2 => d = d2
  | .shopify d m desc c o p s b k _, .shopify d2 m2 desc2 c2 o2 p2 s2 b2 k2 _ =>
    d = d2 ∧ m = m2 ∧ desc = desc2 ∧ c = c2 ∧ o = o2 ∧ p = p2 ∧ s = s2 ∧
      b = b2 ∧ k = k2
  | _, _ => False

/-- The capture timestamp of a full record. -/
def tsOf : StoreRecord → Option Nat
  | .shopify _ _ _ _ _ _ _ _ _ ts => some ts
  | _ => none

/-- Host of a URL: the chars after "://", minus a leading "www.", up to
the next slash. -/
def afterScheme : List Char → List Char
  | [] => []
  | ':' :: '/' :: '/' :: rest => rest
  | _ :: rest => afterScheme rest

def hostOf (url : String) : String :=
  let t := afterScheme url.data
  let t2 := if startsSeq "www.".data t then t.drop 4 else t
  String.mk (t2.takeWhile (fun c => !(c = '/')))

/-- Declarative semantics of `matchLits`. -/
def LitsMatchP : List Char → List Char → Prop
  | [], m => m = []
  | c :: gs, m => ∃ d m2, m = d :: m2 ∧ litMatches c d = true ∧ LitsMatchP gs m2

/-- Declarative semantics of `matchAtoms` (what a consumed chunk looks
like). -/
def AtomsMatchP : List Atom → List Char → Prop
  | [], m => m = []
  | .lit c :: rest, m => ∃ d m2, m = d :: m2 ∧ litMatches c d = true ∧ AtomsMatchP rest m2
  | .wild :: rest, m => ∃ d m2, m = d :: m2 ∧ d ≠ '\n' ∧ AtomsMatchP rest m2
  | .optLits g :: rest, m =>
    (∃ m1 m2, m = m1 ++ m2 ∧ LitsMatchP g m1 ∧ AtomsMatchP rest m2) ∨ AtomsMatchP rest m
  | .plus p :: rest, m =>
    ∃ t m2, m = t ++ m2 ∧ t ≠ [] ∧ (∀ c ∈ t, p c = true) ∧ AtomsMatchP rest m2

/-- Shape of any text matched by the `"x.com"` platform pattern, read
after ASCII lower-casing: scheme, optional `www.`, then the host chars
`x`, one arbitrary char (the unescaped dot), `com.com`, a slash and a
nonempty path. -/
def xcomMatchShape (m : List Char) : Prop :=
  ∃ (s w : Bool) (c2 : Char) (path : List Char),
    m.map Char.toLower =
      ['h', 't', 't', 'p'] ++ (if s then ['s'] else []) ++ [':', '/', '/'] ++
        (if w then ['w', 'w', 'w', '.'] else []) ++
        ['x', c2, 'c', 'o', 'm', '.', 'c', 'o', 'm', '/'] ++ path ∧
    path ≠ []

/-! ### Concrete fixtures used by witnesses and counterexamples -/

/-- Trivial external models: no similarities, no keywords, no prose. -/
def env0 : EnvModel := ⟨fun _ => [], fun _ _ => [], fun _ => none⟩

def prodA : Product := ⟨"Thing", "", "", [], []⟩

def prodB : Product := ⟨"Gizmo", "", "", [], []⟩

/-- The spec's price-aggregation example: variant prices
0, -5, "bad", 10.00, 20.00. -/
def pEx : Product :=
  ⟨"t", "", "", [],
   [⟨some (.num 0)⟩, ⟨some (.num (-5))⟩, ⟨some .invalid⟩,
    ⟨some (.num 10)⟩, ⟨some (.num 20)⟩]⟩

/-- A product with the single sub-cent price 1.006. -/
def pSub : Product := ⟨"t", "", "", [], [⟨some (.num (1006 / 1000))⟩]⟩

/-- A similarity row with a tie at the two leading categories. -/
def sims15 : List ℚ := [1, 1, 0, 0, 0, 0, 0, 0, 0, 0, 0, 0, 0, 0, 0]

/-- An empty catalog summary. -/
def offerings0 : CatalogSummary := ⟨[], [], [], [], 0, []⟩

/-- A product endpoint returning a full page 1 (for page size 2) and an
empty page 2. -/
def pagesW2 : Nat → Option PageResp := fun p =>
  if p = 1 then some ⟨200, "application/json", some (some [prodA, prodB])⟩
  else if p = 2 then some ⟨200, "application/json", some (some [])⟩
  else none

/-- A qualifying store: Shopify homepage, one product on page 1. -/
def okWorld : FetchWorld :=
  ⟨.ok ⟨[], "cdn.shopify.com"⟩, none,
   (fun p => if p = 1 then some ⟨200, "application/json", some (some [prodA])⟩ else none),
   none⟩

/-- Homepage fetch raises. -/
def errWorld : FetchWorld := ⟨.error "boom", none, fun _ => none, none⟩

/-- A homepage that fails the platform heuristic. -/
def plainWorld : FetchWorld := ⟨.ok ⟨[], "a plain page"⟩, none, fun _ => none, none⟩

/-- Passes the heuristic but the product endpoint returns zero products. -/
def emptyCatWorld : FetchWorld :=
  ⟨.ok ⟨[], "cdn.shopify.com"⟩, none,
   (fun _ => some ⟨200, "application/json", some (some [])⟩), none⟩

end Crawler

namespace Crawler

/-! ## Helper lemmas -/

theorem foldl_append_filter (f : String → StoreRecord) :
    ∀ (l : List String) (acc : List StoreRecord),
      l.foldl (fun acc d => if isQualifying (f d) then acc ++ [f d] else acc) acc =
        acc ++ (l.map f).filter isQualifying := by
  intro l
  induction l with
  | nil => intro acc; simp
  | cons d rest ih =>
    intro acc
    simp only [List.foldl_cons, List.map_cons, List.filter_cons]
    by_cases h : isQualifying (f d)
    · rw [if_pos h, ih, h]
      simp
    · rw [if_neg h, ih]
      simp [h]

theorem fetchPagesGo_reqs (pages : Nat → Option PageResp) (limit : Nat) :
    ∀ (ps : List Nat) (acc : List Product),
      ∃ t, (fetchPagesGo pages limit ps acc).2 ++ t = ps := by
  intro ps
  induction ps with
  | nil => intro acc; exact ⟨[], rfl⟩
  | cons p ps ih =>
    intro acc
    simp only [fetchPagesGo]
    cases hp : pages p with
    | none => exact ⟨ps, rfl⟩
    | some r =>
      dsimp only
      by_cases hok : r.status = 200 ∧ pyIn "json" r.contentType
      · rw [if_pos hok]
        cases hj : r.json with
        | none => exact ⟨ps, rfl⟩
        | some jv =>
          dsimp only
          by_cases hb : jv.getD [] = []
          · rw [if_pos hb]; exact ⟨ps, rfl⟩
          · rw [if_neg hb]
            by_cases hl : (jv.getD []).length < limit
            · rw [if_pos hl]; exact ⟨ps, rfl⟩
            · rw [if_neg hl]
              obtain ⟨t, ht⟩ := ih (acc ++ jv.getD [])
              refine ⟨t, ?_⟩
              cases hrec : fetchPagesGo pages limit ps (acc ++ jv.getD []) with
              | mk res reqs =>
                rw [hrec] at ht
                simpa using congrArg (fun l => p :: l) ht
      · rw [if_neg hok]; exact ⟨ps, rfl⟩

theorem fetchPagesGo_dropLast_good (pages : Nat → Option PageResp) (limit : Nat) :
    ∀ (ps : List Nat) (acc : List Product) (p : Nat),
      p ∈ ((fetchPagesGo pages limit ps acc).2).dropLast →
      pageGood pages limit p := by
  intro ps
  induction ps with
  | nil => intro acc p hp; simp [fetchPagesGo] at hp
  | cons q ps ih =>
    intro acc p hmem
    simp only [fetchPagesGo] at hmem
    cases hq : pages q with
    | none => rw [hq] at hmem; simp at hmem
    | some r =>
      rw [hq] at hmem
      dsimp only at hmem
      by_cases hok : r.status = 200 ∧ pyIn "json" r.contentType
      · rw [if_pos hok] at hmem
        cases hj : r.json with
        | none => rw [hj] at hmem; simp at hmem
        | some jv =>
          rw [hj] at hmem
          dsimp only at hmem
          by_cases hb : jv.getD [] = []
          · rw [if_pos hb] at hmem; simp at hmem
          · rw [if_neg hb] at hmem
            by_cases hl : (jv.getD []).length < limit
            · rw [if_pos hl] at hmem; simp at hmem
            · rw [if_neg hl] at hmem
              cases hrec : fetchPagesGo pages limit ps (acc ++ jv.getD []) with
              | mk res reqs =>
                rw [hrec] at hmem
                cases hreqs : reqs with
                | nil => rw [hreqs] at hmem; simp at hmem
                | cons a l =>
                  rw [hreqs] at hmem
                  have : p = q ∨ p ∈ (a :: l).dropLast := by
                    have hstep : ((q :: a :: l).dropLast) = q :: (a :: l).dropLast := rfl
                    rw [hstep] at hmem
                    simpa using hmem
                  rcases this with hpq | hin
                  · subst hpq
                    exact ⟨r, jv, hq, hok.1,
                      by simpa using hok.2, hj, hb, hl⟩
                  · have := ih (acc ++ jv.getD []) p
                    rw [hrec, hreqs] at this
                    exact this hin
      · rw [if_neg hok] at hmem; simp at hmem

theorem lexLtB_total : ∀ as bs, lexLtB as bs = true ∨ lexLtB bs as = true ∨ as = bs := by
  intro as
  induction as with
  | nil =>
    intro bs
    cases bs with
    | nil => right; right; rfl
    | cons b bs2 => left; rfl
  | cons a as ih =>
    intro bs
    cases bs with
    | nil => right; left; rfl
    | cons b bs2 =>
      by_cases hab : a = b
      · subst hab
        rcases ih bs2 with h | h | h
        · left; simp [lexLtB, h]
        · right; left; simp [lexLtB, h]
        · right; right; rw [h]
      · rcases lt_trichotomy a b with h | h | h
        · left; simp [lexLtB, hab, h]
        · exact absurd h hab
        · right; left
          have hba : ¬(b = a) := fun e => hab e.symm
          simp [lexLtB, hba, h]

theorem lexLtB_trans : ∀ as bs cs, lexLtB as bs = true → lexLtB bs cs = true →
    lexLtB as cs = true := by
  intro as
  induction as with
  | nil =>
    intro bs cs h1 h2
    cases bs with
    | nil => simp [lexLtB] at h1
    | cons b bs2 =>
      cases cs with
      | nil => simp [lexLtB] at h2
      | cons c cs2 => simp [lexLtB]
  | cons a as ih =>
    intro bs cs h1 h2
    cases bs with
    | nil => simp [lexLtB] at h1
    | cons b bs2 =>
      cases cs with
      | nil => simp [lexLtB] at h2
      | cons c cs2 =>
        simp only [lexLtB] at h1 h2 ⊢
        by_cases hab : a = b
        · subst hab
          rw [if_pos rfl] at h1
          by_cases hac : a = c
          · subst hac
            rw [if_pos rfl] at h2 ⊢
            exact ih _ _ h1 h2
          · rw [if_neg hac] at h2 ⊢
            exact h2
        · rw [if_neg hab] at h1
          have h1' : a < b := of_decide_eq_true h1
          by_cases hbc : b = c
          · subst hbc
            rw [if_neg hab]
            exact h1
          · rw [if_neg hbc] at h2
            have h2' : b < c := of_decide_eq_true h2
            have hac : a < c := lt_trans h1' h2'
            rw [if_neg (ne_of_lt hac)]
            exact decide_eq_true hac

theorem string_mk_data (s : String) : String.mk s.data = s := rfl

instance : IsTrans (String × Nat) pairLe := by
  constructor
  intro a b c hab hbc
  simp only [pairLe, pairLeB, Bool.or_eq_true, Bool.and_eq_true,
    decide_eq_true_eq] at hab hbc ⊢
  rcases hab with h1 | ⟨e1, s1⟩
  · rcases hbc with h2 | ⟨e2, s2⟩
    · left; omega
    · left; omega
  · rcases hbc with h2 | ⟨e2, s2⟩
    · left; omega
    · right
      refine ⟨e1.trans e2, ?_⟩
      rcases s1 with s1 | s1
      · rcases s2 with s2 | s2
        · left; exact lexLtB_trans _ _ _ s1 s2
        · left; rw [← s2]; exact s1
      · rw [s1]; exact s2

instance : IsTotal (String × Nat) pairLe := by
  constructor
  intro a b
  simp only [pairLe, pairLeB, Bool.or_eq_true, Bool.and_eq_true,
    decide_eq_true_eq]
  rcases Nat.lt_trichotomy a.2 b.2 with h | h | h
  · right; left; exact h
  · rcases lexLtB_total a.1.data b.1.data with hl | hl | hl
    · left; right; exact ⟨h, Or.inl hl⟩
    · right; right; exact ⟨h.symm, Or.inl hl⟩
    · left; right
      refine ⟨h, Or.inr ?_⟩
      have := congrArg String.mk hl
      rwa [string_mk_data, string_mk_data] at this
  · left; left; exact h

theorem bump_fst_mem : ∀ (acc : List (String × Nat)) (x : String),
    x ∈ acc.map Prod.fst → (bump acc x).map Prod.fst = acc.map Prod.fst := by
  intro acc
  induction acc with
  | nil => intro x hx; simp at hx
  | cons kv rest ih =>
    intro x hx
    cases kv with
    | mk k c =>
      by_cases hk : k = x
      · simp [bump, hk]
      · have : x ∈ rest.map Prod.fst := by
          simp only [List.map_cons, List.mem_cons] at hx
          rcases hx with h | h
          · exact absurd h.symm hk
          · exact h
        simp [bump, hk, ih x this]

theorem bump_fst_not_mem : ∀ (acc : List (String × Nat)) (x : String),
    x ∉ acc.map Prod.fst →
    (bump acc x).map Prod.fst = acc.map Prod.fst ++ [x] := by
  intro acc
  induction acc with
  | nil => intro x hx; simp [bump]
  | cons kv rest ih =>
    intro x hx
    cases kv with
    | mk k c =>
      have hk : ¬(k = x) := by
        intro e; exact hx (by simp [e])
      have hrest : x ∉ rest.map Prod.fst := by
        intro h; exact hx (by simp [h])
      simp [bump, hk, ih x hrest]

theorem foldl_bump_keys_nodup : ∀ (items : List String) (acc : List (String × Nat)),
    (acc.map Prod.fst).Nodup → ((items.foldl bump acc).map Prod.fst).Nodup := by
  intro items
  induction items with
  | nil => intro acc h; exact h
  | cons i rest ih =>
    intro acc h
    rw [List.foldl_cons]
    apply ih
    by_cases hi : i ∈ acc.map Prod.fst
    · rw [bump_fst_mem acc i hi]; exact h
    · rw [bump_fst_not_mem acc i hi]
      rw [List.nodup_append]
      exact ⟨h, List.nodup_singleton i, by simpa using hi⟩

theorem countOccs_keys_nodup (items : List String) :
    ((countOccs items).map Prod.fst).Nodup :=
  foldl_bump_keys_nodup items [] (by simp)

theorem sortPairs_strict (l : List (String × Nat))
    (h : (l.map Prod.fst).Nodup) :
    List.Pairwise strictFreqOrd (sortPairs l) := by
  have hperm : (sortPairs l).Perm l := List.perm_insertionSort _ _
  have hnd : ((sortPairs l).map Prod.fst).Nodup :=
    ((hperm.map Prod.fst).nodup_iff).mpr h
  have hne : List.Pairwise (fun a b : String × Nat => a.1 ≠ b.1) (sortPairs l) :=
    List.pairwise_map.mp hnd
  have hs : List.Pairwise pairLe (sortPairs l) :=
    List.sorted_insertionSort pairLe l
  refine (hs.and hne).imp ?_
  intro a b hab
  obtain ⟨hle, hneq⟩ := hab
  simp only [pairLe, pairLeB, Bool.or_eq_true, Bool.and_eq_true,
    decide_eq_true_eq] at hle
  rcases hle with h1 | ⟨e1, s1⟩
  · exact Or.inl h1
  · rcases s1 with s1 | s1
    · exact Or.inr ⟨e1, s1⟩
    · exact absurd s1 hneq

theorem topFreq_pairwise (items : List String) (k : Nat) :
    List.Pairwise strictFreqOrd (topFreq items k) :=
  List.Pairwise.sublist (List.take_sublist _ _)
    (sortPairs_strict _ (countOccs_keys_nodup _))

theorem titleTermPairs_pairwise (titles : List String) :
    List.Pairwise strictFreqOrd (titleTermPairs titles) :=
  List.Pairwise.sublist (List.take_sublist _ _)
    (sortPairs_strict _ (countOccs_keys_nodup _))

theorem le_foldl_max : ∀ (xs : List ℚ) (a : ℚ), a ≤ xs.foldl max a := by
  intro xs
  induction xs with
  | nil => intro a; exact le_refl a
  | cons y ys ih =>
    intro a
    exact le_trans (le_max_left a y) (ih (max a y))

theorem mem_le_foldl_max : ∀ (xs : List ℚ) (a x : ℚ), x ∈ xs → x ≤ xs.foldl max a := by
  intro xs
  induction xs with
  | nil => intro a x hx; simp at hx
  | cons y ys ih =>
    intro a x hx
    rcases List.mem_cons.mp hx with h | h
    · subst h
      exact le_trans (le_max_right a x) (le_foldl_max ys (max a x))
    · exact ih (max a y) x h

theorem foldl_max_mem : ∀ (xs : List ℚ) (a : ℚ), xs.foldl max a = a ∨ xs.foldl max a ∈ xs := by
  intro xs
  induction xs with
  | nil => intro a; exact Or.inl rfl
  | cons y ys ih =>
    intro a
    rcases ih (max a y) with h | h
    · rcases max_choice a y with hm | hm
      · rw [List.foldl_cons, h, hm]; exact Or.inl rfl
      · rw [List.foldl_cons, h, hm]; exact Or.inr (List.mem_cons_self y ys)
    · exact Or.inr (List.mem_cons_of_mem y h)

theorem foldl_min_le : ∀ (xs : List ℚ) (a : ℚ), xs.foldl min a ≤ a := by
  intro xs
  induction xs with
  | nil => intro a; exact le_refl a
  | cons y ys ih =>
    intro a
    exact le_trans (ih (min a y)) (min_le_left a y)

theorem foldl_min_le_mem : ∀ (xs : List ℚ) (a x : ℚ), x ∈ xs → xs.foldl min a ≤ x := by
  intro xs
  induction xs with
  | nil => intro a x hx; simp at hx
  | cons y ys ih =>
    intro a x hx
    rcases List.mem_cons.mp hx with h | h
    · subst h
      exact le_trans (foldl_min_le ys (min a x)) (min_le_right a x)
    · exact ih (min a y) x h

theorem foldl_min_mem : ∀ (xs : List ℚ) (a : ℚ), xs.foldl min a = a ∨ xs.foldl min a ∈ xs := by
  intro xs
  induction xs with
  | nil => intro a; exact Or.inl rfl
  | cons y ys ih =>
    intro a
    rcases ih (min a y) with h | h
    · rcases min_choice a y with hm | hm
      · rw [List.foldl_cons, h, hm]; exact Or.inl rfl
      · rw [List.foldl_cons, h, hm]; exact Or.inr (List.mem_cons_self y ys)
    · exact Or.inr (List.mem_cons_of_mem y h)

theorem le_maxQ (l : List ℚ) (x : ℚ) (hx : x ∈ l) : x ≤ maxQ l := by
  cases l with
  | nil => simp at hx
  | cons y ys =>
    rcases List.mem_cons.mp hx with h | h
    · subst h; exact le_foldl_max ys x
    · exact mem_le_foldl_max ys y x h

theorem maxQ_mem (l : List ℚ) (h : l ≠ []) : maxQ l ∈ l := by
  cases l with
  | nil => exact absurd rfl h
  | cons y ys =>
    rcases foldl_max_mem ys y with hm | hm
    · rw [maxQ, hm]; exact List.mem_cons_self y ys
    · exact List.mem_cons_of_mem y hm

theorem minQ_le (l : List ℚ) (x : ℚ) (hx : x ∈ l) : minQ l ≤ x := by
  cases l with
  | nil => simp at hx
  | cons y ys =>
    rcases List.mem_cons.mp hx with h | h
    · subst h; exact foldl_min_le ys x
    · exact foldl_min_le_mem ys y x h

theorem minQ_mem (l : List ℚ) (h : l ≠ []) : minQ l ∈ l := by
  cases l with
  | nil => exact absurd rfl h
  | cons y ys =>
    rcases foldl_min_mem ys y with hm | hm
    · rw [minQ, hm]; exact List.mem_cons_self y ys
    · exact List.mem_cons_of_mem y hm

theorem sum_le_mul_of_le (l : List ℚ) (M : ℚ) (h : ∀ x ∈ l, x ≤ M) :
    l.sum ≤ (l.length : ℚ) * M := by
  induction l with
  | nil => simp
  | cons x xs ih =>
    have hx : x ≤ M := h x (List.mem_cons_self x xs)
    have hxs : xs.sum ≤ (xs.length : ℚ) * M :=
      ih (fun y hy => h y (List.mem_cons_of_mem x hy))
    simp only [List.sum_cons, List.length_cons]
    push_cast
    linarith

theorem mul_le_sum_of_le (l : List ℚ) (m : ℚ) (h : ∀ x ∈ l, m ≤ x) :
    (l.length : ℚ) * m ≤ l.sum := by
  induction l with
  | nil => simp
  | cons x xs ih =>
    have hx : m ≤ x := h x (List.mem_cons_self x xs)
    have hxs : (xs.length : ℚ) * m ≤ xs.sum :=
      ih (fun y hy => h y (List.mem_cons_of_mem x hy))
    simp only [List.sum_cons, List.length_cons]
    push_cast
    linarith

theorem mean_between (l : List ℚ) (h : l ≠ []) :
    minQ l ≤ l.sum / (l.length : ℚ) ∧ l.sum / (l.length : ℚ) ≤ maxQ l := by
  have hlen : (0 : ℚ) < (l.length : ℚ) := by
    have := List.length_pos.mpr h
    exact_mod_cast this
  constructor
  · rw [le_div_iff₀ hlen]
    have := mul_le_sum_of_le l (minQ l) (fun x hx => minQ_le l x hx)
    linarith
  · rw [div_le_iff₀ hlen]
    have := sum_le_mul_of_le l (maxQ l) (fun x hx => le_maxQ l x hx)
    linarith

theorem roundHalfEven_close (x : ℚ) : |(roundHalfEven x : ℚ) - x| ≤ 1 / 2 := by
  have h0 : (0 : ℚ) ≤ x - (⌊x⌋ : ℚ) := by
    have := Int.floor_le x
    linarith
  have h1 : x - (⌊x⌋ : ℚ) < 1 := by
    have := Int.lt_floor_add_one x
    linarith
  unfold roundHalfEven
  split_ifs with hf hf2 hev
  · rw [abs_le]; constructor <;> linarith
  · push_cast; rw [abs_le]; constructor <;> linarith
  · have he : x - (⌊x⌋ : ℚ) = 1 / 2 := le_antisymm (not_lt.mp hf2) (not_lt.mp hf)
    rw [abs_le]; constructor <;> linarith
  · have he : x - (⌊x⌋ : ℚ) = 1 / 2 := le_antisymm (not_lt.mp hf2) (not_lt.mp hf)
    push_cast; rw [abs_le]; constructor <;> linarith

theorem pyRound2_close (q : ℚ) : |pyRound2 q - q| ≤ 1 / 200 := by
  unfold pyRound2
  have h := roundHalfEven_close (q * 100)
  have he : (roundHalfEven (q * 100) : ℚ) / 100 - q =
      ((roundHalfEven (q * 100) : ℚ) - q * 100) / 100 := by ring
  rw [he, abs_div, abs_of_pos (by norm_num : (0 : ℚ) < 100)]
  rw [abs_le] at h
  obtain ⟨h1, h2⟩ := h
  rw [div_le_iff₀ (by norm_num : (0 : ℚ) < 100)]
  rw [abs_le]
  constructor <;> linarith

theorem collectPrices_eq_nil_iff (products : List Product) :
    collectPrices products = [] ↔
      ∀ p ∈ products, ∀ v ∈ p.variants, variantPrice v = none := by
  unfold collectPrices
  rw [List.flatMap_eq_nil_iff]
  constructor
  · intro h p hp v hv
    exact List.filterMap_eq_nil_iff.mp (h p hp) v hv
  · intro h p hp
    exact List.filterMap_eq_nil_iff.mpr (h p hp)

theorem firstIdxOf_lt_length (x : ℚ) :
    ∀ l : List ℚ, x ∈ l → firstIdxOf x l < l.length := by
  intro l
  induction l with
  | nil => intro hx; simp at hx
  | cons y ys ih =>
    intro hx
    by_cases hy : y = x
    · simp [firstIdxOf, hy]
    · rcases List.mem_cons.mp hx with h | h
      · exact absurd h.symm hy
      · simp only [firstIdxOf, if_neg hy, List.length_cons]
        exact Nat.succ_lt_succ (ih h)

theorem getD_firstIdxOf (x : ℚ) :
    ∀ l : List ℚ, x ∈ l → l.getD (firstIdxOf x l) 0 = x := by
  intro l
  induction l with
  | nil => intro hx; simp at hx
  | cons y ys ih =>
    intro hx
    by_cases hy : y = x
    · simp [firstIdxOf, hy]
    · rcases List.mem_cons.mp hx with h | h
      · exact absurd h.symm hy
      · simp only [firstIdxOf, if_neg hy, List.getD_cons_succ]
        exact ih h

theorem getD_lt_firstIdxOf (x : ℚ) :
    ∀ (l : List ℚ) (j : Nat), j < firstIdxOf x l → l.getD j 0 ≠ x := by
  intro l
  induction l with
  | nil => intro j hj; simp [firstIdxOf] at hj
  | cons y ys ih =>
    intro j hj
    by_cases hy : y = x
    · simp [firstIdxOf, hy] at hj
    · rw [firstIdxOf, if_neg hy] at hj
      cases j with
      | zero => simpa using hy
      | succ j2 =>
        rw [List.getD_cons_succ]
        exact ih j2 (Nat.lt_of_succ_lt_succ hj)

theorem getD_mem_of_lt : ∀ (l : List ℚ) (j : Nat), j < l.length → l.getD j 0 ∈ l := by
  intro l
  induction l with
  | nil => intro j hj; simp at hj
  | cons y ys ih =>
    intro j hj
    cases j with
    | zero => simp
    | succ j2 =>
      rw [List.getD_cons_succ]
      exact List.mem_cons_of_mem y (ih j2 (Nat.lt_of_succ_lt_succ hj))

theorem char_toNat_ofNat_valid (n : Nat) (h : n.isValidChar) :
    (Char.ofNat n).toNat = n := by
  unfold Char.ofNat
  rw [dif_pos h]
  rfl

theorem toLower_cases (c : Char) :
    (65 ≤ c.toNat ∧ c.toNat ≤ 90 ∧ (Char.toLower c).toNat = c.toNat + 32) ∨
    (¬(65 ≤ c.toNat ∧ c.toNat ≤ 90) ∧ Char.toLower c = c) := by
  have hdef : Char.toLower c =
      if 65 ≤ c.toNat ∧ c.toNat ≤ 90 then Char.ofNat (c.toNat + 32) else c := rfl
  by_cases h : 65 ≤ c.toNat ∧ c.toNat ≤ 90
  · left
    refine ⟨h.1, h.2, ?_⟩
    rw [hdef, if_pos h]
    exact char_toNat_ofNat_valid _ (Or.inl (by omega))
  · right
    rw [hdef, if_neg h]
    exact ⟨h, rfl⟩

theorem toLower_toLower (c : Char) :
    Char.toLower (Char.toLower c) = Char.toLower c := by
  rcases toLower_cases c with ⟨h1, h2, h3⟩ | ⟨_, he⟩
  · rcases toLower_cases (Char.toLower c) with ⟨g1, g2, _⟩ | ⟨_, ge⟩
    · omega
    · exact ge
  · rw [he]
    exact he

theorem strip_char_not_lower_range {d : Char} (h : inStripSet d = true) :
    ¬(97 ≤ d.toNat ∧ d.toNat ≤ 122) := by
  have hm : d ∈ STRIP_CHARS := of_decide_eq_true h
  fin_cases hm <;> decide

theorem toLower_not_strip {c : Char} (h : inStripSet c = false) :
    inStripSet (Char.toLower c) = false := by
  rcases toLower_cases c with ⟨h1, h2, h3⟩ | ⟨_, he⟩
  · cases hs : inStripSet (Char.toLower c) with
    | false => rfl
    | true =>
      exact absurd ⟨by omega, by omega⟩ (strip_char_not_lower_range hs)
  · rw [he]
    exact h

theorem dropWhile_head_not (p : Char → Bool) :
    ∀ (l : List Char) (c : Char), (l.dropWhile p).head? = some c → p c = false := by
  intro l
  induction l with
  | nil => intro c h; simp at h
  | cons a l2 ih =>
    intro c h
    rw [List.dropWhile_cons] at h
    by_cases hp : p a = true
    · rw [if_pos hp] at h
      exact ih c h
    · rw [if_neg hp] at h
      simp only [List.head?_cons, Option.some.injEq] at h
      subst h
      simpa using hp

theorem dropWhile_eq_drop (p : Char → Bool) :
    ∀ l : List Char, ∃ n, l.dropWhile p = l.drop n := by
  intro l
  induction l with
  | nil => exact ⟨0, rfl⟩
  | cons a l2 ih =>
    by_cases hp : p a = true
    · obtain ⟨n, hn⟩ := ih
      refine ⟨n + 1, ?_⟩
      rw [List.dropWhile_cons, if_pos hp, hn]
      rfl
    · exact ⟨0, by rw [List.dropWhile_cons, if_neg hp]; rfl⟩

theorem getLast?_drop_of_some :
    ∀ (l : List Char) (n : Nat) (c : Char),
      (l.drop n).getLast? = some c → l.getLast? = some c := by
  intro l
  induction l with
  | nil => intro n c h; simp at h
  | cons a l2 ih =>
    intro n c h
    cases n with
    | zero => exact h
    | succ m =>
      have h2 : l2.getLast? = some c := ih m c h
      cases l2 with
      | nil => simp at h2
      | cons b l3 => rw [List.getLast?_cons_cons]; exact h2

theorem pyStrip_head (s : String) (c : Char)
    (h : (pyStrip s).data.head? = some c) : inStripSet c = false :=
  dropWhile_head_not inStripSet _ c h

theorem pyStrip_last (s : String) (c : Char)
    (h : (pyStrip s).data.getLast? = some c) : inStripSet c = false := by
  have hdata : (pyStrip s).data =
      (stripEndBy inStripSet s.data).dropWhile inStripSet := rfl
  rw [hdata] at h
  obtain ⟨n, hn⟩ := dropWhile_eq_drop inStripSet (stripEndBy inStripSet s.data)
  rw [hn] at h
  have hX := getLast?_drop_of_some _ n c h
  unfold stripEndBy at hX
  rw [List.getLast?_reverse] at hX
  exact dropWhile_head_not inStripSet _ c hX

theorem stripBy_eq_self (p : Char → Bool) (s : String)
    (hh : ∀ c, s.data.head? = some c → p c = false)
    (hl : ∀ c, s.data.getLast? = some c → p c = false) :
    stripBy p s = s := by
  unfold stripBy stripEndBy
  have h1 : s.data.reverse.dropWhile p = s.data.reverse := by
    cases hr : s.data.reverse with
    | nil => rfl
    | cons a l2 =>
      have ha : s.data.getLast? = some a := by
        rw [← List.head?_reverse, hr]
        rfl
      rw [List.dropWhile_cons, if_neg (by simp [hl a ha])]
  rw [h1, List.reverse_reverse]
  have h2 : s.data.dropWhile p = s.data := by
    cases hd : s.data with
    | nil => rfl
    | cons a l2 =>
      have ha : s.data.head? = some a := by rw [hd]; rfl
      rw [List.dropWhile_cons, if_neg (by simp [hh a ha])]
  rw [h2]

theorem cleanTerm_head (t : String) (c : Char)
    (h : (cleanTerm t).data.head? = some c) : inStripSet c = false := by
  have hdata : (cleanTerm t).data = (pyStrip t).data.map Char.toLower := rfl
  rw [hdata, List.head?_map] at h
  cases hh : (pyStrip t).data.head? with
  | none => rw [hh] at h; simp at h
  | some c0 =>
    rw [hh] at h
    simp only [Option.map_some', Option.some.injEq] at h
    rw [← h]
    exact toLower_not_strip (pyStrip_head t c0 hh)

theorem cleanTerm_last (t : String) (c : Char)
    (h : (cleanTerm t).data.getLast? = some c) : inStripSet c = false := by
  have hdata : (cleanTerm t).data = (pyStrip t).data.map Char.toLower := rfl
  rw [hdata, List.getLast?_map] at h
  cases hh : (pyStrip t).data.getLast? with
  | none => rw [hh] at h; simp at h
  | some c0 =>
    rw [hh] at h
    simp only [Option.map_some', Option.some.injEq] at h
    rw [← h]
    exact toLower_not_strip (pyStrip_last t c0 hh)

theorem cleanTerm_strip_fix (t : String) : pyStrip (cleanTerm t) = cleanTerm t :=
  stripBy_eq_self inStripSet (cleanTerm t)
    (fun c h => by simpa using cleanTerm_head t c h)
    (fun c h => by simpa using cleanTerm_last t c h)

theorem pyLower_idem (s : String) : pyLower (pyLower s) = pyLower s := by
  unfold pyLower
  have hdata : (String.mk (s.data.map Char.toLower)).data =
      s.data.map Char.toLower := rfl
  rw [hdata, List.map_map]
  have : s.data.map (Char.toLower ∘ Char.toLower) = s.data.map Char.toLower :=
    List.map_congr_left (fun a _ => toLower_toLower a)
  rw [this]

theorem cleanTerm_lower_fix (t : String) : pyLower (cleanTerm t) = cleanTerm t :=
  pyLower_idem (pyStrip t)

theorem extract_keywords_mem (yakeKw : String → Nat → List (String × ℚ))
    (text : String) (topk : Nat) (e : String)
    (he : e ∈ extract_keywords yakeKw text topk) :
    ∃ ts, e = cleanTerm ts ∧ keepTerm e = true := by
  unfold extract_keywords at he
  by_cases ht : text = ""
  · rw [if_pos ht] at he
    simp at he
  · rw [if_neg ht] at he
    have he2 := List.mem_of_mem_take he
    obtain ⟨ts, _, hmap⟩ := List.mem_filterMap.mp he2
    by_cases hk : keepTerm (cleanTerm ts.1) = true
    · rw [if_pos hk] at hmap
      have heq : cleanTerm ts.1 = e := Option.some.inj hmap
      exact ⟨ts.1, heq.symm, heq ▸ hk⟩
    · rw [if_neg hk] at hmap
      exact absurd hmap (Option.noConfusion)

theorem keepTerm_spec (t : String) (h : keepTerm t = true) :
    3 ≤ t.length ∧ ∀ bad ∈ DENYLIST, pyIn bad t = false := by
  unfold keepTerm at h
  rw [Bool.and_eq_true] at h
  obtain ⟨h1, h2⟩ := h
  refine ⟨of_decide_eq_true h1, ?_⟩
  intro bad hb
  have := List.all_eq_true.mp h2 bad hb
  simpa using this

theorem drop_len_takeWhile (p : Char → Bool) :
    ∀ l : List Char, l.drop (l.takeWhile p).length = l.dropWhile p := by
  intro l
  induction l with
  | nil => rfl
  | cons a l2 ih =>
    by_cases hp : p a = true
    · rw [List.takeWhile_cons, if_pos hp, List.dropWhile_cons, if_pos hp,
        List.length_cons, List.drop_succ_cons, ih]
    · rw [List.takeWhile_cons, if_neg hp, List.dropWhile_cons, if_neg hp,
        List.length_nil, List.drop_zero]

theorem matchLits_sound : ∀ (g cs m r : List Char),
    matchLits g cs = some (m, r) → cs = m ++ r ∧ LitsMatchP g m := by
  intro g
  induction g with
  | nil =>
    intro cs m r h
    simp only [matchLits, Option.some.injEq, Prod.mk.injEq] at h
    obtain ⟨hm, hr⟩ := h
    subst hm
    subst hr
    exact ⟨rfl, rfl⟩
  | cons c gs ih =>
    intro cs m r h
    cases cs with
    | nil => simp [matchLits] at h
    | cons d cs2 =>
      by_cases hl : litMatches c d = true
      · simp only [matchLits, if_pos hl] at h
        cases hrec : matchLits gs cs2 with
        | none => rw [hrec] at h; simp at h
        | some mr =>
          cases mr with
          | mk m2 r2 =>
            rw [hrec] at h
            simp only [Option.map_some', Option.some.injEq, Prod.mk.injEq] at h
            obtain ⟨hm, hr⟩ := h
            obtain ⟨hcs, hlits⟩ := ih cs2 m2 r2 hrec
            subst hcs
            rw [← hm, ← hr]
            exact ⟨rfl, ⟨d, m2, rfl, hl, hlits⟩⟩
      · simp only [matchLits, if_neg hl] at h
        exact Option.noConfusion h

theorem matchAtoms_sound : ∀ (atoms : List Atom) (cs m r : List Char),
    matchAtoms atoms cs = some (m, r) → cs = m ++ r ∧ AtomsMatchP atoms m := by
  intro atoms
  induction atoms with
  | nil =>
    intro cs m r h
    simp only [matchAtoms, Option.some.injEq, Prod.mk.injEq] at h
    obtain ⟨hm, hr⟩ := h
    subst hm
    subst hr
    exact ⟨rfl, rfl⟩
  | cons a rest ih =>
    intro cs m r h
    cases a with
    | lit c =>
      cases cs with
      | nil => simp [matchAtoms] at h
      | cons d cs2 =>
        by_cases hl : litMatches c d = true
        · simp only [matchAtoms, if_pos hl] at h
          cases hrec : matchAtoms rest cs2 with
          | none => rw [hrec] at h; simp at h
          | some mr =>
            cases mr with
            | mk m2 r2 =>
              rw [hrec] at h
              simp only [Option.map_some', Option.some.injEq, Prod.mk.injEq] at h
              obtain ⟨hm, hr⟩ := h
              obtain ⟨hcs, hrest⟩ := ih cs2 m2 r2 hrec
              subst hcs
              rw [← hm, ← hr]
              exact ⟨rfl, ⟨d, m2, rfl, hl, hrest⟩⟩
        · simp only [matchAtoms, if_neg hl] at h
          exact Option.noConfusion h
    | wild =>
      cases cs with
      | nil => simp [matchAtoms] at h
      | cons d cs2 =>
        by_cases hn : d = '\n'
        · simp only [matchAtoms, if_pos hn] at h
          exact Option.noConfusion h
        · simp only [matchAtoms, if_neg hn] at h
          cases hrec : matchAtoms rest cs2 with
          | none => rw [hrec] at h; simp at h
          | some mr =>
            cases mr with
            | mk m2 r2 =>
              rw [hrec] at h
              simp only [Option.map_some', Option.some.injEq, Prod.mk.injEq] at h
              obtain ⟨hm, hr⟩ := h
              obtain ⟨hcs, hrest⟩ := ih cs2 m2 r2 hrec
              subst hcs
              rw [← hm, ← hr]
              exact ⟨rfl, ⟨d, m2, rfl, hn, hrest⟩⟩
    | optLits g =>
      cases hlit : matchLits g cs with
      | none =>
        simp only [matchAtoms, hlit] at h
        obtain ⟨hcs, hrest⟩ := ih cs m r h
        exact ⟨hcs, Or.inr hrest⟩
      | some mr1 =>
        cases mr1 with
        | mk m1 cs1 =>
          simp only [matchAtoms, hlit] at h
          cases hrec : matchAtoms rest cs1 with
          | none =>
            rw [hrec] at h
            obtain ⟨hcs, hrest⟩ := ih cs m r h
            exact ⟨hcs, Or.inr hrest⟩
          | some mr2 =>
            cases mr2 with
            | mk m2 r2 =>
              rw [hrec] at h
              simp only [Option.some.injEq, Prod.mk.injEq] at h
              obtain ⟨hm, hr⟩ := h
              obtain ⟨hcs1, hlits⟩ := matchLits_sound g cs m1 cs1 hlit
              obtain ⟨hcs2, hrest⟩ := ih cs1 m2 r2 hrec
              subst hcs1
              subst hcs2
              rw [← hm, ← hr]
              exact ⟨(List.append_assoc m1 m2 r2).symm,
                Or.inl ⟨m1, m2, rfl, hlits, hrest⟩⟩
    | plus p =>
      simp only [matchAtoms] at h
      by_cases he : (cs.takeWhile p).isEmpty = true
      · rw [if_pos he] at h
        exact Option.noConfusion h
      · rw [if_neg he] at h
        cases hrec : matchAtoms rest (cs.drop (cs.takeWhile p).length) with
        | none => rw [hrec] at h; simp at h
        | some mr =>
          cases mr with
          | mk m2 r2 =>
            rw [hrec] at h
            simp only [Option.map_some', Option.some.injEq, Prod.mk.injEq] at h
            obtain ⟨hm, hr⟩ := h
            obtain ⟨hcs, hrest⟩ := ih _ m2 r2 hrec
            have hsplit : cs = cs.takeWhile p ++ cs.drop (cs.takeWhile p).length := by
              rw [drop_len_takeWhile]
              exact (List.takeWhile_append_dropWhile p cs).symm
            constructor
            · rw [← hm, ← hr]
              calc cs = cs.takeWhile p ++ cs.drop (cs.takeWhile p).length := hsplit
                _ = cs.takeWhile p ++ (m2 ++ r2) := by rw [hcs]
                _ = (cs.takeWhile p ++ m2) ++ r2 := by rw [List.append_assoc]
            · rw [← hm]
              refine ⟨cs.takeWhile p, m2, rfl, ?_, ?_, hrest⟩
              · intro he2
                rw [he2] at he
                exact he rfl
              · intro c hc
                exact List.mem_takeWhile_imp hc

theorem colon_mem_of_match : ∀ (atoms : List Atom) (m : List Char),
    Atom.lit ':' ∈ atoms → AtomsMatchP atoms m → ':' ∈ m := by
  intro atoms
  induction atoms with
  | nil => intro m hmem _; simp at hmem
  | cons a rest ih =>
    intro m hmem hmatch
    cases a with
    | lit c =>
      obtain ⟨d, m2, rfl, hl, hrest⟩ := hmatch
      rcases List.mem_cons.mp hmem with he | he
      · have hc : c = ':' := (Atom.lit.inj he.symm)
        subst hc
        have hdl : d.toLower = Char.toLower ':' := of_decide_eq_true hl
        have hcol : d = ':' := by
          rcases toLower_cases d with ⟨h1, h2, h3⟩ | ⟨_, h4⟩
          · have : (Char.toLower d).toNat = (Char.toLower ':').toNat :=
              congrArg Char.toNat hdl
            rw [h3] at this
            have : d.toNat + 32 = 58 := this
            omega
          · rw [← h4, hdl]
            rfl
        subst hcol
        exact List.mem_cons_self ':' m2
      · exact List.mem_cons_of_mem d (ih m2 he hrest)
    | wild =>
      obtain ⟨d, m2, rfl, _, hrest⟩ := hmatch
      rcases List.mem_cons.mp hmem with he | he
      · exact absurd he (by intro hx; exact Atom.noConfusion hx)
      · exact List.mem_cons_of_mem d (ih m2 he hrest)
    | optLits g =>
      have he : Atom.lit ':' ∈ rest := by
        rcases List.mem_cons.mp hmem with he | he
        · exact absurd he (by intro hx; exact Atom.noConfusion hx)
        · exact he
      rcases hmatch with ⟨m1, m2, rfl, _, hrest⟩ | hrest
      · exact List.mem_append_right m1 (ih m2 he hrest)
      · exact ih m he hrest
    | plus p =>
      have he : Atom.lit ':' ∈ rest := by
        rcases List.mem_cons.mp hmem with he | he
        · exact absurd he (by intro hx; exact Atom.noConfusion hx)
        · exact he
      obtain ⟨t, m2, rfl, _, _, hrest⟩ := hmatch
      exact List.mem_append_right t (ih m2 he hrest)

theorem scanAll_sound (pat : List Atom) :
    ∀ (fuel : Nat) (cs : List Char) (e : String), e ∈ scanAll pat fuel cs →
      ∃ cs2 m r, matchAtoms pat cs2 = some (m, r) ∧ e = String.mk m := by
  intro fuel
  induction fuel with
  | zero => intro cs e he; simp [scanAll] at he
  | succ f ih =>
    intro cs e he
    cases cs with
    | nil => simp [scanAll] at he
    | cons c cs2 =>
      simp only [scanAll] at he
      cases hm : matchAtoms pat (c :: cs2) with
      | none =>
        rw [hm] at he
        exact ih cs2 e he
      | some mr =>
        cases mr with
        | mk m rest =>
          rw [hm] at he
          dsimp only at he
          by_cases hemp : m.isEmpty = true
          · rw [if_pos hemp] at he
            exact ih cs2 e he
          · rw [if_neg hemp] at he
            rcases List.mem_cons.mp he with h | h
            · exact ⟨c :: cs2, m, rest, hm, h⟩
            · exact ih rest e h

theorem scanAll_nil (pat : List Atom) :
    ∀ (fuel : Nat) (cs : List Char), (∀ n, matchAtoms pat (cs.drop n) = none) →
      scanAll pat fuel cs = [] := by
  intro fuel
  induction fuel with
  | zero => intro cs _; rfl
  | succ f ih =>
    intro cs h
    cases cs with
    | nil => rfl
    | cons c cs2 =>
      have h0 := h 0
      rw [List.drop_zero] at h0
      simp only [scanAll, h0]
      exact ih cs2 (fun n => by
        have := h (n + 1)
        rwa [List.drop_succ_cons] at this)

theorem dedupeGo_subset : ∀ (l seen : List String) (x : String),
    x ∈ dedupeGo l seen → x ∈ l := by
  intro l
  induction l with
  | nil => intro seen x h; simp [dedupeGo] at h
  | cons a l2 ih =>
    intro seen x h
    simp only [dedupeGo] at h
    by_cases hc : seen.contains a = true
    · rw [if_pos hc] at h
      exact List.mem_cons_of_mem a (ih seen x h)
    · rw [if_neg hc] at h
      rcases List.mem_cons.mp h with h | h
      · exact h ▸ List.mem_cons_self a l2
      · exact List.mem_cons_of_mem a (ih (a :: seen) x h)

theorem mem_dedupe (l : List String) (x : String) (h : x ∈ dedupe l) : x ∈ l :=
  dedupeGo_subset l [] x h

theorem social_entry_xcom (html : String) (l : List String)
    (h : ("x.com", l) ∈ extract_social_links html) :
    l = dedupe (findall (platformAtoms "x.com") html) := by
  unfold extract_social_links at h
  obtain ⟨pl, _, hf⟩ := List.mem_filterMap.mp h
  by_cases hms : findall (platformAtoms pl) html = []
  · rw [if_pos hms] at hf
    exact Option.noConfusion hf
  · rw [if_neg hms] at hf
    injection Option.some.inj hf with h1 h2
    subst h1
    exact h2.symm

theorem social_no_xcom_of_findall_nil (html : String)
    (hnil : findall (platformAtoms "x.com") html = []) :
    ∀ l, ("x.com", l) ∉ extract_social_links html := by
  intro l h
  unfold extract_social_links at h
  obtain ⟨pl, _, hf⟩ := List.mem_filterMap.mp h
  by_cases hms : findall (platformAtoms pl) html = []
  · rw [if_pos hms] at hf
    exact Option.noConfusion hf
  · rw [if_neg hms] at hf
    injection Option.some.inj hf with h1 h2
    subst h1
    exact hms hnil

theorem xcom_pattern_flat :
    platformAtoms "x.com" =
      [Atom.lit 'h', Atom.lit 't', Atom.lit 't', Atom.lit 'p', Atom.optLits ['s'],
       Atom.lit ':', Atom.lit '/', Atom.lit '/', Atom.optLits ['w', 'w', 'w', '.'],
       Atom.lit 'x', Atom.wild, Atom.lit 'c', Atom.lit 'o', Atom.lit 'm',
       Atom.lit '.', Atom.lit 'c', Atom.lit 'o', Atom.lit 'm', Atom.lit '/',
       Atom.plus isUrlChar] := rfl

theorem no_colon_no_match (cs : List Char) (hnc : ':' ∉ cs) :
    matchAtoms (platformAtoms "x.com") cs = none := by
  cases hm : matchAtoms (platformAtoms "x.com") cs with
  | none => rfl
  | some mr =>
    cases mr with
    | mk m r =>
      obtain ⟨hcs, hmatch⟩ := matchAtoms_sound _ cs m r hm
      have hcolpat : Atom.lit ':' ∈ platformAtoms "x.com" := by
        rw [xcom_pattern_flat]
        exact List.mem_cons_of_mem _ (List.mem_cons_of_mem _
          (List.mem_cons_of_mem _ (List.mem_cons_of_mem _
            (List.mem_cons_of_mem _ (List.mem_cons_self _ _)))))
      have hc : ':' ∈ m := colon_mem_of_match _ m hcolpat hmatch
      exact absurd (by rw [hcs]; exact List.mem_append_left r hc) hnc

theorem xcom_genuine_never_matches (handle : String)
    (hchars : ∀ c ∈ handle.data, isUrlChar c = true) :
    findall (platformAtoms "x.com") ("https://x.com/" ++ handle) = [] := by
  unfold findall
  apply scanAll_nil
  intro n
  have hdata : ("https://x.com/" ++ handle).data =
      "https://x.com/".data ++ handle.data := by
    rfl
  rw [hdata]
  by_cases hn : n < 14
  · interval_cases n <;> rfl
  · obtain ⟨k, rfl⟩ : ∃ k, n = 14 + k := ⟨n - 14, by omega⟩
    have hdrop : ("https://x.com/".data ++ handle.data).drop (14 + k) =
        handle.data.drop k := by
      have h14 : ("https://x.com/".data).length = 14 := rfl
      rw [List.drop_append_eq_append_drop]
      rw [h14]
      simp
    rw [hdrop]
    apply no_colon_no_match
    intro hc
    exact absurd (hchars ':' (List.drop_subset _ _ hc)) (by decide)

theorem litM {c d : Char} (h : litMatches c d = true) : d.toLower = c.toLower :=
  of_decide_eq_true h

theorem tlow_h : Char.toLower 'h' = 'h' := rfl
theorem tlow_t : Char.toLower 't' = 't' := rfl
theorem tlow_p : Char.toLower 'p' = 'p' := rfl
theorem tlow_s : Char.toLower 's' = 's' := rfl
theorem tlow_colon : Char.toLower ':' = ':' := rfl
theorem tlow_slash : Char.toLower '/' = '/' := rfl
theorem tlow_w : Char.toLower 'w' = 'w' := rfl
theorem tlow_dot : Char.toLower '.' = '.' := rfl
theorem tlow_x : Char.toLower 'x' = 'x' := rfl
theorem tlow_c : Char.toLower 'c' = 'c' := rfl
theorem tlow_o : Char.toLower 'o' = 'o' := rfl
theorem tlow_m : Char.toLower 'm' = 'm' := rfl

theorem xcomShape_of_match (m : List Char)
    (h : AtomsMatchP (platformAtoms "x.com") m) : xcomMatchShape m := by
  rw [xcom_pattern_flat] at h
  simp only [AtomsMatchP, LitsMatchP] at h
  obtain ⟨d1, m1, rfl, hd1, d2, m2, rfl, hd2, d3, m3, rfl, hd3, d4, m4, rfl, hd4,
    hrest⟩ := h
  rcases hrest with
    ⟨m5, m6, rfl, ⟨d5, m5x, rfl, hd5, rfl⟩,
      d6, m7, rfl, hd6, d7, m8, rfl, hd7, d8, m9, rfl, hd8,
      (⟨mw, m10, rfl, ⟨e1, mw1, rfl, he1, e2, mw2, rfl, he2, e3, mw3, rfl, he3,
          e4, mw4, rfl, he4, rfl⟩,
        d9, m11, rfl, hd9, dw, m12, rfl, hnlw, d10, m13, rfl, hd10,
        d11, m14, rfl, hd11, d12, m15, rfl, hd12, d13, m16, rfl, hd13,
        d14, m17, rfl, hd14, d15, m18, rfl, hd15, d16, m19, rfl, hd16,
        d17, m20, rfl, hd17, t, mz, rfl, htne, htp, rfl⟩ |
       ⟨d9, m11, rfl, hd9, dw, m12, rfl, hnlw, d10, m13, rfl, hd10,
        d11, m14, rfl, hd11, d12, m15, rfl, hd12, d13, m16, rfl, hd13,
        d14, m17, rfl, hd14, d15, m18, rfl, hd15, d16, m19, rfl, hd16,
        d17, m20, rfl, hd17, t, mz, rfl, htne, htp, rfl⟩)⟩ |
    ⟨d6, m7, rfl, hd6, d7, m8, rfl, hd7, d8, m9, rfl, hd8,
      (⟨mw, m10, rfl, ⟨e1, mw1, rfl, he1, e2, mw2, rfl, he2, e3, mw3, rfl, he3,
          e4, mw4, rfl, he4, rfl⟩,
        d9, m11, rfl, hd9, dw, m12, rfl, hnlw, d10, m13, rfl, hd10,
        d11, m14, rfl, hd11, d12, m15, rfl, hd12, d13, m16, rfl, hd13,
        d14, m17, rfl, hd14, d15, m18, rfl, hd15, d16, m19, rfl, hd16,
        d17, m20, rfl, hd17, t, mz, rfl, htne, htp, rfl⟩ |
       ⟨d9, m11, rfl, hd9, dw, m12, rfl, hnlw, d10, m13, rfl, hd10,
        d11, m14, rfl, hd11, d12, m15, rfl, hd12, d13, m16, rfl, hd13,
        d14, m17, rfl, hd14, d15, m18, rfl, hd15, d16, m19, rfl, hd16,
        d17, m20, rfl, hd17, t, mz, rfl, htne, htp, rfl⟩)⟩
  · refine ⟨true, true, Char.toLower dw, t.map Char.toLower, ?_, ?_⟩
    · simp [litM hd1, litM hd2, litM hd3, litM hd4, litM hd5, litM hd6, litM hd7,
        litM hd8, litM he1, litM he2, litM he3, litM he4, litM hd9, litM hd10,
        litM hd11, litM hd12, litM hd13, litM hd14, litM hd15, litM hd16,
        litM hd17, tlow_h, tlow_t, tlow_p, tlow_s, tlow_colon, tlow_slash,
        tlow_w, tlow_dot, tlow_x, tlow_c, tlow_o, tlow_m]
    · simpa using htne
  · refine ⟨true, false, Char.toLower dw, t.map Char.toLower, ?_, ?_⟩
    · simp [litM hd1, litM hd2, litM hd3, litM hd4, litM hd5, litM hd6, litM hd7,
        litM hd8, litM hd9, litM hd10, litM hd11, litM hd12, litM hd13,
        litM hd14, litM hd15, litM hd16, litM hd17, tlow_h, tlow_t, tlow_p,
        tlow_s, tlow_colon, tlow_slash, tlow_dot, tlow_x, tlow_c, tlow_o, tlow_m]
    · simpa using htne
  · refine ⟨false, true, Char.toLower dw, t.map Char.toLower, ?_, ?_⟩
    · simp [litM hd1, litM hd2, litM hd3, litM hd4, litM hd6, litM hd7, litM hd8,
        litM he1, litM he2, litM he3, litM he4, litM hd9, litM hd10, litM hd11,
        litM hd12, litM hd13, litM hd14, litM hd15, litM hd16, litM hd17,
        tlow_h, tlow_t, tlow_p, tlow_colon, tlow_slash, tlow_w, tlow_dot,
        tlow_x, tlow_c, tlow_o, tlow_m]
    · simpa using htne
  · refine ⟨false, false, Char.toLower dw, t.map Char.toLower, ?_, ?_⟩
    · simp [litM hd1, litM hd2, litM hd3, litM hd4, litM hd6, litM hd7, litM hd8,
        litM hd9, litM hd10, litM hd11, litM hd12, litM hd13, litM hd14,
        litM hd15, litM hd16, litM hd17, tlow_h, tlow_t, tlow_p, tlow_colon,
        tlow_slash, tlow_dot, tlow_x, tlow_c, tlow_o, tlow_m]
    · simpa using htne


/-! ## Claims -/

/-- C3: the product fetch requests pages starting at 1 in order (the
requested pages form a prefix of 1..maxPages), only continues past a
page that was status-200 JSON with a full nonempty batch (so it stops
early at the first bad, empty or short page); a full page 1 followed by
an empty page 2 yields exactly the page-1 batch with pages [1, 2]
requested and none beyond; a short page 1 stops after page 1. -/
theorem pagination_termination (pages : Nat → Option PageResp)
    (limit page_limit : Nat) :
    (∃ t, (fetch_shopify_productsT pages limit page_limit).2 ++ t =
        List.range' 1 page_limit) ∧
    (∀ p ∈ ((fetch_shopify_productsT pages limit page_limit).2).dropLast,
        pageGood pages limit p) ∧
    (∀ r1 b1 r2 jv2,
        pages 1 = some r1 → r1.status = 200 → pyIn "json" r1.contentType = true →
        r1.json = some (some b1) → b1 ≠ [] → b1.length = limit →
        pages 2 = some r2 → r2.status = 200 → pyIn "json" r2.contentType = true →
        r2.json = some jv2 → jv2.getD [] = [] → page_limit = 2 →
        fetch_shopify_products pages limit page_limit = b1 ∧
        (fetch_shopify_productsT pages limit page_limit).2 = [1, 2]) ∧
    (∀ r1 b1,
        pages 1 = some r1 → r1.status = 200 → pyIn "json" r1.contentType = true →
        r1.json = some (some b1) → b1 ≠ [] → b1.length < limit → 1 ≤ page_limit →
        fetch_shopify_products pages limit page_limit = b1 ∧
        (fetch_shopify_productsT pages limit page_limit).2 = [1]) := by
  refine ⟨fetchPagesGo_reqs pages limit _ [],
          fun p hp => fetchPagesGo_dropLast_good pages limit _ [] p hp, ?_, ?_⟩
  · intro r1 b1 r2 jv2 hp1 hs1 hct1 hj1 hb1 hlen hp2 hs2 hct2 hj2 hjv2 hpl
    subst hpl
    have hnl : ¬(b1.length < limit) := by rw [hlen]; exact lt_irrefl _
    have h1 : fetchPagesGo pages limit [1, 2] [] = (b1, [1, 2]) := by
      simp [fetchPagesGo, hp1, hj1, hs1, hct1, hb1, hnl, hp2, hj2, hs2, hct2, hjv2]
    have hrange : List.range' 1 2 = [1, 2] := rfl
    constructor
    · show (fetch_shopify_productsT pages limit 2).1 = b1
      unfold fetch_shopify_productsT
      rw [hrange, h1]
    · unfold fetch_shopify_productsT
      rw [hrange, h1]
  · intro r1 b1 hp1 hs1 hct1 hj1 hb1 hlt hpl
    cases page_limit with
    | zero => omega
    | succ n =>
      have hrange : List.range' 1 (n + 1) = 1 :: List.range' 2 n := rfl
      have h1 : fetchPagesGo pages limit (1 :: List.range' 2 n) [] = (b1, [1]) := by
        simp [fetchPagesGo, hp1, hj1, hs1, hct1, hb1, hlt]
      constructor
      · show (fetch_shopify_productsT pages limit (n + 1)).1 = b1
        unfold fetch_shopify_productsT
        rw [hrange, h1]
      · unfold fetch_shopify_productsT
        rw [hrange, h1]

theorem pagination_termination_witness :
    fetch_shopify_products pagesW2 2 2 = [prodA, prodB] ∧
    (fetch_shopify_productsT pagesW2 2 2).2 = [1, 2] ∧
    fetch_shopify_products okWorld.productPage 250 2 = [prodA] ∧
    (fetch_shopify_productsT okWorld.productPage 250 2).2 = [1] := by
  have hA := (pagination_termination pagesW2 2 2).2.2.1
    ⟨200, "application/json", some (some [prodA, prodB])⟩ [prodA, prodB]
    ⟨200, "application/json", some (some [])⟩ (some [])
    (by decide) rfl (by decide) rfl (by decide) rfl
    (by decide) rfl (by decide) rfl rfl rfl
  have hB := (pagination_termination okWorld.productPage 250 2).2.2.2
    ⟨200, "application/json", some (some [prodA])⟩ [prodA]
    (by decide) rfl (by decide) rfl (by decide) (by decide) (by decide)
  exact ⟨hA.1, hA.2, hB.1, hB.2⟩

/-- C4 (amended): summarizePrices discards non-numeric and non-positive
variant prices and is absent exactly when no strictly-positive numeric
price remains; otherwise min/max are the true minimum/maximum, the
count is the number of contributing prices, the mean is the sum over
the count rounded to 2 decimals, min ≤ max, and the rounded mean lies
within half a cent of the [min, max] interval (the original min ≤ mean
≤ max can fail by up to 1/200 because the stored mean is rounded); the
example [0, -5, "bad", 10.00, 20.00] yields min 10, max 20, mean 15,
count 2. -/
theorem price_summary_spec (products : List Product) :
    (summarize_prices products = none ↔
        ∀ p ∈ products, ∀ v ∈ p.variants, variantPrice v = none) ∧
    (∀ s, summarize_prices products = some s →
        s.num_prices = (collectPrices products).length ∧
        s.min_price = minQ (collectPrices products) ∧
        s.max_price = maxQ (collectPrices products) ∧
        s.avg_price =
          pyRound2 ((collectPrices products).sum / ((collectPrices products).length : ℚ)) ∧
        s.min_price ≤ s.max_price ∧
        s.min_price - 1 / 200 ≤ s.avg_price ∧
        s.avg_price ≤ s.max_price + 1 / 200) ∧
    summarize_prices [pEx] = some ⟨10, 20, 15, 2⟩ := by
  refine ⟨?_, ?_, ?_⟩
  · constructor
    · intro hnone
      by_cases hnil : collectPrices products = []
      · exact (collectPrices_eq_nil_iff products).mp hnil
      · simp [summarize_prices, hnil] at hnone
    · intro hall
      have hnil := (collectPrices_eq_nil_iff products).mpr hall
      simp [summarize_prices, hnil]
  · intro s hs
    by_cases hnil : collectPrices products = []
    · simp [summarize_prices, hnil] at hs
    · have hs2 : s = ⟨minQ (collectPrices products), maxQ (collectPrices products),
          pyRound2 ((collectPrices products).sum / ((collectPrices products).length : ℚ)),
          (collectPrices products).length⟩ := by
        simp [summarize_prices, hnil] at hs
        exact hs.symm
      subst hs2
      have hmm : minQ (collectPrices products) ≤ maxQ (collectPrices products) :=
        le_maxQ _ _ (minQ_mem _ hnil)
      obtain ⟨hlo, hhi⟩ := mean_between (collectPrices products) hnil
      have hcl := pyRound2_close
        ((collectPrices products).sum / ((collectPrices products).length : ℚ))
      rw [abs_le] at hcl
      obtain ⟨hc1, hc2⟩ := hcl
      refine ⟨rfl, rfl, rfl, rfl, hmm, ?_, ?_⟩
      · show minQ (collectPrices products) - 1 / 200 ≤ _
        dsimp only
        linarith
      · dsimp only
        linarith
  · norm_num [summarize_prices, collectPrices, variantPrice, pEx, minQ, maxQ,
      pyRound2, roundHalfEven, min_def, max_def, Int.fract,
      List.flatMap_cons, List.flatMap_nil, List.filterMap_cons, List.filterMap_nil,
      List.foldl_cons, List.foldl_nil, List.sum_cons, List.sum_nil]
    intro h
    exact absurd h (List.cons_ne_nil _ _)

theorem price_summary_spec_witness :
    summarize_prices [pEx] = some ⟨10, 20, 15, 2⟩ ∧
    (⟨10, 20, 15, 2⟩ : PriceSummary).min_price - 1 / 200 ≤
      (⟨10, 20, 15, 2⟩ : PriceSummary).avg_price := by
  have hc : summarize_prices [pEx] = some ⟨10, 20, 15, 2⟩ :=
    (price_summary_spec [pEx]).2.2
  exact ⟨hc, ((price_summary_spec [pEx]).2.1 ⟨10, 20, 15, 2⟩ hc).2.2.2.2.2.1⟩

/-- C4 (counterexample): for the single sub-cent price 1.006 the stored
price summary has the rounded mean 1.01, strictly above the maximum
1.006 — so min ≤ mean ≤ max fails as stated. -/
theorem rounded_mean_exceeds_max :
    summarize_prices [pSub] = some ⟨1006 / 1000, 1006 / 1000, 101 / 100, 1⟩ ∧
    ¬((101 : ℚ) / 100 ≤ 1006 / 1000) := by
  constructor
  · norm_num [summarize_prices, collectPrices, variantPrice, pSub, minQ, maxQ,
      pyRound2, roundHalfEven, Int.fract,
      List.flatMap_cons, List.flatMap_nil, List.filterMap_cons, List.filterMap_nil,
      List.foldl_cons, List.foldl_nil, List.sum_cons, List.sum_nil]
  · norm_num

/-- C5: every top-K frequency list of the catalog summarizer (product
types, vendors, tags, and the pairs behind the title terms) is pairwise
ordered by strictly descending count with ties broken by strictly
ascending lexicographic key — hence deterministic for fixed input — and
counts b:2, a:2, c:1 with K = 2 yield [(a, 2), (b, 2)]. -/
theorem topk_ordering (products : List Product) (items : List String) (k : Nat) :
    List.Pairwise strictFreqOrd (topFreq items k) ∧
    List.Pairwise strictFreqOrd (summarize_products products).product_types_top ∧
    List.Pairwise strictFreqOrd (summarize_products products).vendors_top ∧
    List.Pairwise strictFreqOrd (summarize_products products).tags_top ∧
    List.Pairwise strictFreqOrd (titleTermPairs (products.map Product.title)) ∧
    (summarize_products products).title_terms_top =
      (titleTermPairs (products.map Product.title)).map Prod.fst ∧
    topFreq ["b", "b", "a", "a", "c"] 2 = [("a", 2), ("b", 2)] :=
  ⟨topFreq_pairwise _ _, topFreq_pairwise _ _, topFreq_pairwise _ _,
   topFreq_pairwise _ _, titleTermPairs_pairwise _, rfl, by decide⟩

/-- C7: the classifier selects the category at the first index attaining
the maximal similarity (so equal maximal similarities are resolved in
favor of the earlier vocabulary entry) and returns exactly
name ++ " sells " ++ category ++ " and related products.". -/
theorem classifier_argmax (simsOf : String → List ℚ) (domain : String)
    (meta : Option MetaJson) (offerings : CatalogSummary) (keywords : List String) :
    let text := if compositeText offerings keywords = "" then "products"
      else compositeText offerings keywords
    let sims := simsOf text
    sims.length = CATEGORIES.length →
    ∃ i, i < CATEGORIES.length ∧
      describe_store_semantic simsOf domain meta offerings keywords =
        displayName domain meta ++ " sells " ++ CATEGORIES.getD i "" ++
          " and related products." ∧
      sims.getD i 0 = maxQ sims ∧
      (∀ x ∈ sims, x ≤ maxQ sims) ∧
      (∀ j, j < i → sims.getD j 0 < maxQ sims) := by
  intro text sims h
  have hne : sims ≠ [] := by
    intro e
    rw [e] at h
    simp [CATEGORIES] at h
  have hmem := maxQ_mem sims hne
  refine ⟨firstIdxOf (maxQ sims) sims, ?_, ?_, ?_, ?_, ?_⟩
  · rw [← h]
    exact firstIdxOf_lt_length _ _ hmem
  · rfl
  · exact getD_firstIdxOf _ _ hmem
  · intro x hx
    exact le_maxQ _ _ hx
  · intro j hj
    have hlt : j < sims.length := lt_trans hj (firstIdxOf_lt_length _ _ hmem)
    have hne2 := getD_lt_firstIdxOf (maxQ sims) sims j hj
    have hgd : sims.getD (firstIdxOf (maxQ sims) sims) 0 = maxQ sims :=
      getD_firstIdxOf _ _ hmem
    exact lt_of_le_of_ne (le_maxQ _ _ (getD_mem_of_lt sims j hlt)) hne2

theorem classifier_argmax_witness :
    ∃ i, i < CATEGORIES.length ∧
      describe_store_semantic (fun _ => sims15) "shop.com" none offerings0 [] =
        displayName "shop.com" none ++ " sells " ++ CATEGORIES.getD i "" ++
          " and related products." ∧
      sims15.getD i 0 = maxQ sims15 ∧
      (∀ x ∈ sims15, x ≤ maxQ sims15) ∧
      (∀ j, j < i → sims15.getD j 0 < maxQ sims15) :=
  classifier_argmax (fun _ => sims15) "shop.com" none offerings0 [] (by decide)

/-- C6 (amended): with the fetch layer and the external models held
fixed, two runs of the per-domain pipeline produce records that agree
on every field except the capture timestamp, which is the wall-clock
second of each run; the records are fully identical exactly when the
two runs observe the same clock second. -/
theorem pipeline_deterministic (env : EnvModel) (w : FetchWorld) (d : String)
    (t1 t2 : Nat) :
    eqExceptTimestamp (analyze_shopify_store env w t1 d)
      (analyze_shopify_store env w t2 d) ∧
    (t1 = t2 →
      analyze_shopify_store env w t1 d = analyze_shopify_store env w t2 d) := by
  constructor
  · unfold analyze_shopify_store
    cases hh : w.homepage with
    | error e => simp [eqExceptTimestamp]
    | ok resp =>
      by_cases hdet : is_shopify_store resp.body resp.headers = true
      · by_cases hp : fetch_shopify_products w.productPage 250 2 = []
        · simp [hdet, hp, eqExceptTimestamp]
        · simp [hdet, hp, eqExceptTimestamp]
      · rw [Bool.not_eq_true] at hdet
        simp [hdet, eqExceptTimestamp]
  · intro he
    rw [he]

theorem pipeline_deterministic_witness :
    analyze_shopify_store env0 okWorld 5 "a.com" =
      analyze_shopify_store env0 okWorld 5 "a.com" :=
  (pipeline_deterministic env0 okWorld "a.com" 5 5).2 rfl

/-- C6 (counterexample): on identical fixture responses and identical
deterministic external models, two runs capturing wall-clock seconds 0
and 1 yield full qualifying records that are not byte-identical: they
differ in the capture timestamp. -/
theorem timestamp_differs_across_runs :
    analyze_shopify_store env0 okWorld 0 "a.com" ≠
      analyze_shopify_store env0 okWorld 1 "a.com" ∧
    tsOf (analyze_shopify_store env0 okWorld 0 "a.com") = some 0 ∧
    tsOf (analyze_shopify_store env0 okWorld 1 "a.com") = some 1 := by
  refine ⟨?_, ?_, ?_⟩ <;> decide

/-- C8: for any YAKE output, extractKeywords returns at most topK
entries, each a fixed point of lower-casing and of punctuation
stripping (so lower-cased and stripped of surrounding punctuation), of
length at least 3, containing no denylist substring; empty input yields
the empty list. -/
theorem keyword_hygiene (yakeKw : String → Nat → List (String × ℚ))
    (text : String) (topk : Nat) :
    extract_keywords yakeKw "" topk = [] ∧
    (extract_keywords yakeKw text topk).length ≤ topk ∧
    ∀ e ∈ extract_keywords yakeKw text topk,
      pyLower e = e ∧ pyStrip e = e ∧ 3 ≤ e.length ∧
      ∀ bad ∈ DENYLIST, pyIn bad e = false := by
  refine ⟨rfl, ?_, ?_⟩
  · unfold extract_keywords
    by_cases ht : text = ""
    · rw [if_pos ht]
      exact Nat.zero_le _
    · rw [if_neg ht]
      exact List.length_take_le _ _
  · intro e he
    obtain ⟨ts, hts, hk⟩ := extract_keywords_mem yakeKw text topk e he
    obtain ⟨h3, hden⟩ := keepTerm_spec e hk
    subst hts
    exact ⟨cleanTerm_lower_fix ts, cleanTerm_strip_fix ts, h3, hden⟩

theorem keyword_hygiene_witness :
    pyLower "great coffee" = "great coffee" ∧
    pyStrip "great coffee" = "great coffee" ∧
    3 ≤ ("great coffee" : String).length ∧
    ∀ bad ∈ DENYLIST, pyIn bad "great coffee" = false :=
  (keyword_hygiene (fun _ _ => [("  Great Coffee- ", 1)]) "some text" 5).2.2
    "great coffee" (by decide)

/-- C10 (amended): the platform list contains "x.com", whose dot is
spliced into the regex unescaped and acts as a wildcard: every URL
recorded under the "x.com" key matches scheme, optional www., then host
chars x, one arbitrary char, com.com and a slash (so its host has the
shape x?com.com — e.g. xzcom.com — rather than necessarily the literal
x.com.com); a genuine https://x.com/<handle> profile link never matches
and never produces an "x.com" entry. -/
theorem xcom_platform_pattern (html : String) (handle : String) :
    (∀ l, ("x.com", l) ∈ extract_social_links html →
        ∀ url ∈ l, xcomMatchShape url.data) ∧
    ((∀ c ∈ handle.data, isUrlChar c = true) →
        ∀ l, ("x.com", l) ∉ extract_social_links ("https://x.com/" ++ handle)) ∧
    extract_social_links "https://x.com/somehandle" = [] := by
  refine ⟨?_, ?_, by decide⟩
  · intro l hl url hurl
    have hldef := social_entry_xcom html l hl
    rw [hldef] at hurl
    have hfind := mem_dedupe _ _ hurl
    obtain ⟨cs2, mtch, r, hm, he⟩ :=
      scanAll_sound (platformAtoms "x.com") _ _ url hfind
    obtain ⟨_, hmatch⟩ := matchAtoms_sound _ cs2 mtch r hm
    have hs := xcomShape_of_match mtch hmatch
    rw [he]
    exact hs
  · intro hchars
    exact social_no_xcom_of_findall_nil _
      (xcom_genuine_never_matches handle hchars)

theorem xcom_platform_pattern_witness :
    xcomMatchShape ("https://xzcom.com/ab" : String).data ∧
    ("x.com", ["https://x.com/somehandle"]) ∉
      extract_social_links ("https://x.com/" ++ "somehandle") :=
  ⟨(xcom_platform_pattern "see https://xzcom.com/ab end" "somehandle").1
      ["https://xzcom.com/ab"] (by decide) "https://xzcom.com/ab" (by decide),
   (xcom_platform_pattern "x" "somehandle").2.1 (by decide)
      ["https://x.com/somehandle"]⟩

/-- C10 (counterexample): the body "see https://xzcom.com/ab end"
produces an "x.com" entry whose only URL has host xzcom.com, not the
claimed x.com.com — the wildcard dot matches 'z'. -/
theorem xcom_host_mismatch :
    extract_social_links "see https://xzcom.com/ab end" =
      [("x.com", ["https://xzcom.com/ab"])] ∧
    hostOf "https://xzcom.com/ab" = "xzcom.com" ∧
    hostOf "https://xzcom.com/ab" ≠ "x.com.com" := by
  refine ⟨?_, ?_, ?_⟩ <;> decide

/-- C9: the platform detector has a fifth disjunct: a body containing
the substrings "shopify" and "script" (case-insensitively) is accepted
even with no CDN-host signature, no feature-flag signature, no
platform-named response-header key, and without both the cart-route and
product-route substrings. -/
theorem detector_fifth_disjunct :
    pyIn "shopify" (pyLower "shopify script marker") = true ∧
    pyIn "script" (pyLower "shopify script marker") = true ∧
    pyIn "cdn.shopify.com" (pyLower "shopify script marker") = false ∧
    pyIn "shopify-features" (pyLower "shopify script marker") = false ∧
    (([] : List (String × String)).any
      (fun kv => pyIn "shopify" (pyLower kv.1))) = false ∧
    ¬(pyIn "/cart" (pyLower "shopify script marker") = true ∧
      pyIn "/products/" (pyLower "shopify script marker") = true) ∧
    is_shopify_store "shopify script marker" [] = true := by
  decide

/-- C2: a domain that passes the platform heuristic but whose paginated
product fetch yields no products is recorded as "Not Shopify", and any
qualifying ("Shopify") record was built from a nonempty catalog. -/
theorem empty_catalog_is_not_qualifying (env : EnvModel) (w : FetchWorld)
    (now : Nat) (domain : String) :
    (∀ resp, w.homepage = .ok resp →
        is_shopify_store resp.body resp.headers = true →
        fetch_shopify_products w.productPage 250 2 = [] →
        analyze_shopify_store env w now domain = .notShopify domain) ∧
    (isQualifying (analyze_shopify_store env w now domain) = true →
        fetch_shopify_products w.productPage 250 2 ≠ []) := by
  constructor
  · intro resp hh hdet hprod
    unfold analyze_shopify_store
    rw [hh]
    simp [hdet, hprod]
  · intro hq
    unfold analyze_shopify_store at hq
    cases hh : w.homepage with
    | error e => rw [hh] at hq; simp [isQualifying] at hq
    | ok resp =>
      rw [hh] at hq
      by_cases hdet : is_shopify_store resp.body resp.headers = true
      · simp only [hdet, Bool.not_true, Bool.false_eq_true, if_false] at hq
        by_cases hprod : fetch_shopify_products w.productPage 250 2 = []
        · rw [if_pos hprod] at hq
          simp [isQualifying] at hq
        · exact hprod
      · rw [Bool.not_eq_true] at hdet
        simp [hdet, isQualifying] at hq

theorem empty_catalog_is_not_qualifying_witness :
    analyze_shopify_store env0 emptyCatWorld 0 "s.com" = .notShopify "s.com" ∧
    fetch_shopify_products okWorld.productPage 250 2 ≠ [] :=
  ⟨(empty_catalog_is_not_qualifying env0 emptyCatWorld 0 "s.com").1
      ⟨[], "cdn.shopify.com"⟩ rfl (by decide) (by decide),
   (empty_catalog_is_not_qualifying env0 okWorld 0 "s.com").2 (by decide)⟩

/-- C1 (amended): the main loop analyzes every input domain and never
aborts, but appends only records whose platform verdict is "Shopify":
the output equals the qualifying-filtered image of the per-domain
analysis, so FetchError and Not-Shopify terminal records are dropped
rather than reported. -/
theorem main_loop_keeps_only_qualifying (env : EnvModel)
    (worlds : String → FetchWorld) (now : Nat) (domains : List String) :
    runMain env worlds now domains =
      (domains.map (fun d => analyze_shopify_store env (worlds d) now d)).filter
        isQualifying ∧
    ∀ r ∈ runMain env worlds now domains, isQualifying r = true := by
  have h := foldl_append_filter
    (fun d => analyze_shopify_store env (worlds d) now d) domains []
  constructor
  · exact h
  · intro r hr
    rw [runMain, h] at hr
    simp only [List.nil_append] at hr
    exact (List.mem_filter.mp hr).2

theorem main_loop_keeps_only_qualifying_witness :
    isQualifying (analyze_shopify_store env0 okWorld 0 "a.com") = true :=
  (main_loop_keeps_only_qualifying env0 (fun _ => okWorld) 0 ["a.com"]).2
    (analyze_shopify_store env0 okWorld 0 "a.com") (by decide)

/-- C1 (counterexample): two domains reach terminal states (one
FetchError, one Not-Shopify) yet the run's result sequence is empty —
the output does not account for every input domain. -/
theorem result_set_drops_failed_domains :
    runMain env0 (fun d => if d = "err.com" then errWorld else plainWorld) 0
        ["err.com", "plain.com"] = [] ∧
    analyze_shopify_store env0 errWorld 0 "err.com" =
      .fetchError "err.com" "fetch_home_failed: boom" ∧
    analyze_shopify_store env0 plainWorld 0 "plain.com" =
      .notShopify "plain.com" := by
  refine ⟨?_, ?_, ?_⟩ <;> decide

end Crawler
